import Mathlib

/-!
Verification of `src/posts_scraper.py` (Roach Ag "Resources" scraper).

The Python source is shallowly embedded below.  Pure string functions are
translated to Lean functions over `String` / `List Char`; the BeautifulSoup
document tree is modelled flatly: a page presents its elements in document
order, each carrying the data the source reads from it (tag name, stripped
text, following-sibling blocks, link/image attributes).  Fallible code
(HTTP fetch) is modelled with `Option`.
-/

namespace RoachScrape

/-! ## Generic string helpers (Python semantics) -/

/-- Python regex `\s` / `str.strip()` whitespace class, restricted to the
whitespace characters Python treats as such (ASCII whitespace plus the
Unicode space separators). -/
def isPySpace (c : Char) : Bool :=
  c.toNat = 32 || c.toNat = 9 || c.toNat = 10 || c.toNat = 13 ||
  c.toNat = 11 || c.toNat = 12 ||
  (28 ≤ c.toNat && c.toNat ≤ 31) || c.toNat = 133 || c.toNat = 160 ||
  c.toNat = 5760 || (8192 ≤ c.toNat && c.toNat ≤ 8202) ||
  c.toNat = 8232 || c.toNat = 8233 || c.toNat = 8239 || c.toNat = 8287 ||
  c.toNat = 12288

/-- `s.strip()` on a char list: drop Python-whitespace from both ends. -/
def pyStripChars (l : List Char) : List Char :=
  (l.dropWhile isPySpace).reverse.dropWhile isPySpace |>.reverse

/-- Collapse every maximal run of Python whitespace to a single space
(the effect of `re.sub(r"\s+", " ", s)`).  The flag records whether the
previous character was part of a whitespace run already emitted. -/
def collapseWsAux : Bool → List Char → List Char
  | _, [] => []
  | inRun, c :: rest =>
    if isPySpace c then
      if inRun then collapseWsAux true rest
      else ' ' :: collapseWsAux true rest
    else c :: collapseWsAux false rest

def collapseWs (l : List Char) : List Char := collapseWsAux false l

/-- `normalize_spaces` (line 71): replace NBSP and narrow NBSP by a space,
collapse whitespace runs, strip the ends.  (The NBSP replacement is
subsumed by `isPySpace`, which already treats U+00A0/U+202F as whitespace,
exactly as Python's Unicode `\s` does.) -/
def normalize_spaces (s : String) : String :=
  ⟨pyStripChars (collapseWs s.data)⟩

/-- `needle in haystack` (Python substring test) on char lists. -/
def subListIn (needle : List Char) : List Char → Bool
  | [] => needle.isEmpty
  | c :: rest => needle.isPrefixOf (c :: rest) || subListIn needle rest

/-- Python's `in` operator for strings: substring containment. -/
def strIn (needle haystack : String) : Bool :=
  subListIn needle.data haystack.data

/-- Python `str.lower()` restricted to ASCII (all strings the scraper
compares case-insensitively are ASCII). -/
def pyLower (s : String) : String := ⟨s.data.map Char.toLower⟩

/-- Split a char list at every occurrence of `sep`, Python
`str.split(sep)` semantics for a one-character separator:
`"".split(sep) == [""]`, empty pieces are kept. -/
def splitOnChar (sep : Char) : List Char → List (List Char)
  | [] => [[]]
  | c :: rest =>
    if c = sep then [] :: splitOnChar sep rest
    else
      match splitOnChar sep rest with
      | [] => [[c]]
      | g :: gs => (c :: g) :: gs

/-! ## `is_clean_post_path` (lines 84-106) and `BAD_SLUGS` (lines 47-51) -/

/-- `BAD_SLUGS` (lines 47-51): section/category slugs to ignore. -/
def BAD_SLUGS : List String :=
  ["Presentations", "Calendar", "Author", "World-Crop-Weather", "Brazil",
   "Argentina", "China", "Russia", "Europe", "Australia",
   "Brazil-Crop-Updates", "Yield-Reports", "Sell-Signal-Charts",
   "Futures-Prices", "Recent-Webinars", "WASDE"]

/-- `[p for p in path.split("/") if p]` (line 90): split on `/` and drop
empty segments. -/
def pathParts (path : String) : List String :=
  ((splitOnChar '/' path.data).map (fun l => (⟨l⟩ : String))).filter
    (fun p => p ≠ "")

/-- `is_clean_post_path` (lines 84-106), taken at the path component of the
link (for the scheme-less, query-less hrefs the filter receives,
`urlparse(href).path` is the href itself).  Accept `/Resources/<slug>`
patterns, skip known bad sections and the bare section root. -/
def is_clean_post_path (path : String) : Bool :=
  let parts := pathParts path
  match parts with
  | [] => false
  | first :: rest =>
    if first ≠ "Resources" then false
    else match rest with
      | [] => false
      | second :: _ =>
        if BAD_SLUGS.contains second then false
        else second ≠ ""

/-! ## `norm_url` (lines 75-77)

`norm_url` returns `""` for a falsy href, passes through hrefs that start
with `"http"`, and otherwise resolves against
`BASE = "https://roachag.com"` with `urllib.parse.urljoin`.  The
embedding follows CPython's `urljoin`/`urlparse`/`urlunparse` specialised
to this base (scheme `https`, netloc `roachag.com`, empty path, params,
query and fragment):

* `urlsplit` first left-strips C0-control-or-space characters and removes
  every tab, CR and LF;
* a leading `scheme:` is recognised when the part before the first `:` is
  a letter followed by letters, digits, `+`, `-` or `.`, and is
  lower-cased; a missing scheme defaults to the base's `https`;
* if the parsed scheme differs from `https`, the href is returned
  unchanged;
* a `//netloc` prefix is split off (raising `ValueError` — modelled as
  `none` — when the netloc's square brackets are unbalanced; the further
  validation CPython applies to bracketed IPv6/IPvFuture hosts and to
  non-ASCII netlocs, which can also raise, is not modelled — no claim
  touches such netlocs); a nonempty netloc wins over the base's;
* the fragment is split at the first `#`, the query at the first `?`,
  params at the first `;` of the last path segment;
* an empty path keeps the base's (empty) path; otherwise `.` and `..`
  segments are resolved exactly as CPython does;
* `urlunparse` reassembles `https://netloc/path;params?query#fragment`,
  omitting empty parts. -/

def schemeChar (c : Char) : Bool :=
  c.isAlpha || c.isDigit || c = '+' || c = '-' || c = '.'

/-- The cleaning `urlsplit` applies before parsing. -/
def cleanUrl (l : List Char) : List Char :=
  (l.dropWhile (fun c => c.val ≤ 0x20)).filter
    (fun c => c ≠ '\t' && c ≠ '\r' && c ≠ '\n')

/-- Split a leading `scheme:`, lower-casing the scheme. -/
def schemeSplit (l : List Char) : Option (List Char × List Char) :=
  let pre := l.takeWhile (fun c => c ≠ ':')
  if pre.length < l.length then
    match pre with
    | [] => none
    | c0 :: _ =>
      if c0.isAlpha && pre.all schemeChar then
        some (pre.map Char.toLower, l.drop (pre.length + 1))
      else none
  else none

/-- Split at the first occurrence of `ch`; `(l, [])` when absent
(indistinguishable, for reassembly, from `ch` present with an empty
remainder, exactly as in Python). -/
def splitAtFirst (ch : Char) : List Char → List Char × List Char
  | [] => ([], [])
  | c :: rest =>
    if c = ch then ([], rest)
    else
      let r := splitAtFirst ch rest
      (c :: r.1, r.2)

/-- `_splitparams`: split params at the first `;` of the last path
segment (of the whole path when it has no `/`). -/
def splitParamsPath (path : List Char) : List Char × List Char :=
  if path.contains ';' then
    if path.contains '/' then
      let post := ((path.reverse.takeWhile (fun c => c ≠ '/'))).reverse
      let pre := path.take (path.length - post.length)
      if post.contains ';' then
        let s := splitAtFirst ';' post
        (pre ++ s.1, s.2)
      else (path, [])
    else splitAtFirst ';' path
  else (path, [])

/-- The segment-resolution loop: `..` pops (ignoring `IndexError`),
`.` is skipped, anything else is appended. -/
def dotResolve (segs : List (List Char)) : List (List Char) :=
  segs.foldl
    (fun acc seg =>
      if seg = ['.', '.'] then acc.dropLast
      else if seg = ['.'] then acc
      else acc ++ [seg])
    []

/-- `'/'.join`. -/
def joinSegs : List (List Char) → List Char
  | [] => []
  | [s] => s
  | s :: rest => s ++ '/' :: joinSegs rest

/-- `urlunparse((scheme="https", netloc, path, params, query, frag))`:
`https` is truthy and in `uses_netloc`, so `urlunsplit`'s netloc branch
fires unless the netloc is empty and the path already starts `//`. -/
def unparse (netloc path params query frag : List Char) : List Char :=
  let u1 := if params.isEmpty then path else path ++ ';' :: params
  let u2 :=
    if !netloc.isEmpty || !"//".data.isPrefixOf u1 then
      '/' :: '/' :: netloc ++
        (if !u1.isEmpty && !"/".data.isPrefixOf u1 then '/' :: u1 else u1)
    else u1
  let u3 := "https:".data ++ u2
  let u4 := if query.isEmpty then u3 else u3 ++ '?' :: query
  if frag.isEmpty then u4 else u4 ++ '#' :: frag

/-- The tail of `urljoin` for the base's scheme: split fragment, query
and params, then either keep the href's netloc, keep the base's empty
path, or resolve dot segments. -/
def joinCore (netloc tail0 : List Char) (hasOwnNetloc : Bool) : List Char :=
  let fq := splitAtFirst '#' tail0
  let pq := splitAtFirst '?' fq.1
  let pp := splitParamsPath pq.1
  if hasOwnNetloc && !netloc.isEmpty then
    unparse netloc pp.1 pp.2 pq.2 fq.2
  else
    let bn := "roachag.com".data
    if pp.1.isEmpty && pp.2.isEmpty then
      unparse bn [] [] pq.2 fq.2
    else
      let ps := splitOnChar '/' pp.1
      let segs :=
        if "/".data.isPrefixOf pp.1 then ps
        else
          match ps.getLast? with
          | some lastSeg =>
            [] :: ((ps.dropLast.filter (fun s => !s.isEmpty)) ++ [lastSeg])
          | none => [[]]
      let res := dotResolve segs
      let res2 :=
        if segs.getLast? = some ['.'] ∨ segs.getLast? = some ['.', '.'] then
          res ++ [[]]
        else res
      let joined := joinSegs res2
      unparse bn (if joined.isEmpty then ['/'] else joined) pp.2 pq.2 fq.2

/-- `urljoin(BASE, href)` for an href that does not start with `"http"`;
`none` models the `ValueError` raised on an unbalanced-bracket netloc. -/
def urljoinBase (orig : List Char) : Option (List Char) :=
  let cleaned := cleanUrl orig
  let sr :=
    match schemeSplit cleaned with
    | some sr => sr
    | none => ("https".data, cleaned)
  if sr.1 ≠ "https".data then some orig
  else if "//".data.isPrefixOf sr.2 then
    let after := sr.2.drop 2
    let netloc := after.takeWhile (fun c => c ≠ '/' && c ≠ '?' && c ≠ '#')
    if (netloc.contains '[' && !netloc.contains ']') ||
       (netloc.contains ']' && !netloc.contains '[') then none
    else some (joinCore netloc (after.drop netloc.length) true)
  else some (joinCore [] sr.2 false)

/-- `norm_url` (lines 75-77).  `none` models an uncaught `ValueError`
propagating out of `urljoin`. -/
def norm_url (href : String) : Option String :=
  if href.data.isEmpty then some ""
  else if "http".data.isPrefixOf href.data then some href
  else (urljoinBase href.data).map (fun l => (⟨l⟩ : String))

theorem unparse_startswith_http (nl p pr q f : List Char) :
    "http".data.isPrefixOf (unparse nl p pr q f) = true := by
  have h : ∀ z : List Char,
      "http".data.isPrefixOf ("https:".data ++ z) = true := by
    intro z
    show List.isPrefixOf ['h', 't', 't', 'p']
      (['h', 't', 't', 'p', 's', ':'] ++ z) = true
    simp [List.isPrefixOf]
  unfold unparse
  dsimp only
  by_cases hq : q.isEmpty <;> by_cases hf : f.isEmpty <;>
    simp [hq, hf, List.append_assoc, h]

theorem joinCore_startswith_http (nl t : List Char) (b : Bool) :
    "http".data.isPrefixOf (joinCore nl t b) = true := by
  unfold joinCore
  dsimp only
  split
  · exact unparse_startswith_http ..
  · split
    · exact unparse_startswith_http ..
    · exact unparse_startswith_http ..

theorem urljoinBase_cases {orig r : List Char}
    (h : urljoinBase orig = some r) :
    "http".data.isPrefixOf r = true ∨ r = orig := by
  unfold urljoinBase at h
  dsimp only at h
  split at h
  · right; cases h; rfl
  · split at h
    · split at h
      · cases h
      · left; cases h; exact joinCore_startswith_http ..
    · left; cases h; exact joinCore_startswith_http ..

theorem isPrefixOf_ne_nil {pre l : List Char} (hp : pre.isPrefixOf l = true)
    (hpre : pre ≠ []) : l ≠ [] := by
  cases l with
  | nil => cases pre with
    | nil => exact absurd rfl hpre
    | cons a as => simp [List.isPrefixOf] at hp
  | cons b bs => simp

/-- A returned href passes through `norm_url` unchanged when it starts
with `"http"`. -/
theorem norm_url_http_passthrough (u : String)
    (h : "http".data.isPrefixOf u.data = true) : norm_url u = some u := by
  unfold norm_url
  have hne : u.data ≠ [] := isPrefixOf_ne_nil h (by decide)
  rw [if_neg (by simpa using hne), if_pos h]

theorem takeWhile_all_eq {p : Char → Bool} :
    ∀ {l : List Char}, l.all p = true → l.takeWhile p = l := by
  intro l
  induction l with
  | nil => intro _; rfl
  | cons c cs ih =>
    intro h
    simp only [List.all_cons, Bool.and_eq_true] at h
    simp [List.takeWhile, h.1, ih h.2]

theorem filter_all_eq {p : Char → Bool} :
    ∀ {l : List Char}, l.all p = true → l.filter p = l := by
  intro l
  induction l with
  | nil => intro _; rfl
  | cons c cs ih =>
    intro h
    simp only [List.all_cons, Bool.and_eq_true] at h
    simp [List.filter, h.1, ih h.2]

theorem splitAtFirst_not_mem {ch : Char} :
    ∀ {l : List Char}, l.all (fun c => c ≠ ch) = true →
      splitAtFirst ch l = (l, []) := by
  intro l
  induction l with
  | nil => intro _; rfl
  | cons c cs ih =>
    intro h
    simp only [List.all_cons, Bool.and_eq_true] at h
    have hc : ¬ c = ch := by simpa using h.1
    simp [splitAtFirst, hc, ih h.2]

theorem contains_false_of_all_ne {ch : Char} :
    ∀ {l : List Char}, l.all (fun c => c ≠ ch) = true →
      l.contains ch = false := by
  intro l
  induction l with
  | nil => intro _; rfl
  | cons c cs ih =>
    intro h
    simp only [List.all_cons, Bool.and_eq_true] at h
    have hc : ¬ c = ch := by simpa using h.1
    simp only [List.contains_cons]
    rw [ih h.2]
    simpa using fun he => absurd he.symm hc

theorem splitOnChar_not_mem {sep : Char} :
    ∀ {l : List Char}, l.all (fun c => c ≠ sep) = true →
      splitOnChar sep l = [l] := by
  intro l
  induction l with
  | nil => intro _; rfl
  | cons c cs ih =>
    intro h
    simp only [List.all_cons, Bool.and_eq_true] at h
    have hc : ¬ c = sep := by simpa using h.1
    simp [splitOnChar, hc, ih h.2]

/-- A character that can appear in a "plain" relative path segment:
printable, no URL delimiter, no dot. -/
def plainSeg (c : Char) : Bool :=
  0x20 < c.val && c ≠ '/' && c ≠ ':' && c ≠ '#' && c ≠ '?' &&
    c ≠ ';' && c ≠ '.'

theorem unparse_simple (nl path : List Char) (hnl : nl.isEmpty = false)
    (hpath : "/".data.isPrefixOf path = true) :
    unparse nl path [] [] [] = "https:".data ++ '/' :: '/' :: (nl ++ path) := by
  unfold unparse
  dsimp only
  simp only [List.isEmpty_nil, eq_self_iff_true, if_true]
  rw [hnl, hpath]
  simp

/-- Resolution of a plain one-segment absolute-path href: `norm_url`
prefixes the fixed origin. -/
theorem norm_url_relative_resolve (rest : List Char) (hne : rest ≠ [])
    (hall : rest.all plainSeg = true) :
    norm_url ⟨'/' :: rest⟩ =
      some ⟨"https://roachag.com".data ++ '/' :: rest⟩ := by
  have hmem : ∀ c ∈ rest, plainSeg c = true := List.all_eq_true.mp hall
  have hall_of : ∀ (p : Char → Bool), (∀ c, plainSeg c = true → p c = true) →
      rest.all p = true := by
    intro p himp
    exact List.all_eq_true.mpr (fun c hc => himp c (hmem c hc))
  have hno : ∀ (x : Char), ('/' : Char) ≠ x →
      (('/' :: rest).all (fun c => c ≠ x) = true ↔
        rest.all (fun c => c ≠ x) = true) := by
    intro x hx
    simp [hx]
  have hdot : ∀ c, plainSeg c = true → (c ≠ '.') = true := by
    intro c hc
    unfold plainSeg at hc
    simp only [Bool.and_eq_true] at hc
    simpa using hc.2
  have hrest_ne : ∀ (x : Char), plainSeg x = false →
      rest.all (fun c => c ≠ x) = true := by
    intro x hx
    refine hall_of _ (fun c hc => ?_)
    by_cases hcx : c = x
    · rw [hcx] at hc; rw [hc] at hx; cases hx
    · simpa using hcx
  -- rest is not a dot segment
  have hrdot : rest ≠ ['.'] := by
    intro h; subst h
    have := hmem '.' (by simp)
    simp [plainSeg] at this
  have hrdot2 : rest ≠ ['.', '.'] := by
    intro h; subst h
    have := hmem '.' (by simp)
    simp [plainSeg] at this
  -- the cleaned list is unchanged
  have hclean : cleanUrl ('/' :: rest) = '/' :: rest := by
    unfold cleanUrl
    have h1 : List.dropWhile (fun c => c.val ≤ 0x20) ('/' :: rest) =
        '/' :: rest := by
      rw [List.dropWhile_cons_of_neg]
      decide
    rw [h1]
    refine filter_all_eq ?_
    refine List.all_eq_true.mpr (fun c hc => ?_)
    rcases List.mem_cons.mp hc with hc | hc
    · subst hc; decide
    · have := hmem c hc
      unfold plainSeg at this
      simp only [Bool.and_eq_true] at this
      have hval := this.1.1.1.1.1.1
      simp only [Bool.and_eq_true, decide_eq_true_eq]
      refine ⟨⟨?_, ?_⟩, ?_⟩ <;>
        · intro he
          subst he
          revert hval
          decide
  have hsch : schemeSplit ('/' :: rest) = none := by
    unfold schemeSplit
    have ht : List.takeWhile (fun c => c ≠ ':') ('/' :: rest) =
        '/' :: rest := by
      refine takeWhile_all_eq ?_
      rw [hno ':' (by decide)]
      exact hrest_ne ':' (by decide)
    rw [ht]
    simp
  obtain ⟨c0, cs, hrc⟩ : ∃ c0 cs, rest = c0 :: cs := by
    cases rest with
    | nil => exact absurd rfl hne
    | cons a as => exact ⟨a, as, rfl⟩
  have hc0 : plainSeg c0 = true := by
    rw [hrc] at hmem
    exact hmem c0 (by simp)
  have hnetloc : "//".data.isPrefixOf ('/' :: rest) = false := by
    rw [hrc]
    show List.isPrefixOf ['/', '/'] ('/' :: c0 :: cs) = false
    have h1 : ¬ c0 = '/' := by
      intro h
      rw [h] at hc0
      simp [plainSeg] at hc0
    have h2 : ¬ ('/' : Char) = c0 := fun h => h1 h.symm
    simp [List.isPrefixOf, h2]
  have hhttp : "http".data.isPrefixOf ('/' :: rest) = false := by
    show List.isPrefixOf ['h', 't', 't', 'p'] ('/' :: rest) = false
    simp [List.isPrefixOf]
  have hfq : splitAtFirst '#' ('/' :: rest) = ('/' :: rest, []) := by
    refine splitAtFirst_not_mem ?_
    rw [hno '#' (by decide)]
    exact hrest_ne '#' (by decide)
  have hpq : splitAtFirst '?' ('/' :: rest) = ('/' :: rest, []) := by
    refine splitAtFirst_not_mem ?_
    rw [hno '?' (by decide)]
    exact hrest_ne '?' (by decide)
  have hsemi : ('/' :: rest).contains ';' = false := by
    refine contains_false_of_all_ne ?_
    rw [hno ';' (by decide)]
    exact hrest_ne ';' (by decide)
  have hpp : splitParamsPath ('/' :: rest) = ('/' :: rest, []) := by
    unfold splitParamsPath
    rw [hsemi]
    rfl
  have hps : splitOnChar '/' ('/' :: rest) = [[], rest] := by
    show (if ('/' : Char) = '/' then [] :: splitOnChar '/' rest
          else _) = [[], rest]
    rw [if_pos rfl, splitOnChar_not_mem (hrest_ne '/' (by decide))]
  have hjc : joinCore [] ('/' :: rest) false =
      "https://roachag.com".data ++ '/' :: rest := by
    unfold joinCore
    rw [hfq]
    dsimp only
    rw [hpq]
    dsimp only
    rw [hpp]
    dsimp only
    rw [if_neg (by simp)]
    rw [if_neg (by simp)]
    rw [hps]
    have hslash : "/".data.isPrefixOf ('/' :: rest) = true := by
      show List.isPrefixOf ['/'] ('/' :: rest) = true
      simp [List.isPrefixOf]
    rw [if_pos hslash]
    have hres : dotResolve [[], rest] = [[], rest] := by
      unfold dotResolve
      simp only [List.foldl]
      rw [if_neg hrdot2, if_neg hrdot, if_neg (by decide), if_neg (by decide)]
      rfl
    have hlast : ([[], rest] : List (List Char)).getLast? = some rest := rfl
    rw [hlast]
    have hcond : ¬ ((some rest = some ['.']) ∨
        (some rest = some ['.', '.'])) := by
      rintro (h | h) <;> simp only [Option.some.injEq] at h
      · exact hrdot h
      · exact hrdot2 h
    rw [if_neg hcond, hres]
    have hjs : joinSegs [[], rest] = '/' :: rest := rfl
    rw [hjs]
    have hjoined : ¬ (('/' :: rest).isEmpty = true) := by simp
    rw [if_neg hjoined]
    show unparse "roachag.com".data ('/' :: rest) [] [] [] = _
    rw [unparse_simple _ _ (by decide) hslash]
    rfl
  show (if ('/' :: rest : List Char).isEmpty = true then some "" else _) = _
  rw [if_neg (by simp)]
  rw [if_neg (by simp [hhttp])]
  unfold urljoinBase
  dsimp only
  rw [hclean, hsch]
  dsimp only
  rw [if_neg (by simp), if_neg (by simp [hnetloc]), hjc]
  rfl

/-- C9 counterexample: `norm_url` is not total, so the idempotence
equation does not hold for every string: on `"//["` (an href with an
unbalanced bracket in its network location) `urlsplit` raises
`ValueError: Invalid IPv6 URL`, which `norm_url` does not catch. -/
theorem c9_counterexample_value_error : norm_url "//[" = none := by decide

/-- C9 (amended): on every input on which it returns (it raises
`ValueError` on hrefs that do not start with `"http"` whose parsed
network location has unbalanced square brackets), `norm_url` is
idempotent; inputs starting with `"http"` pass through unchanged; plain
absolute-path relative inputs resolve against the fixed origin
`https://roachag.com`; an href with a non-`https` scheme also passes
through unchanged (e.g. `mailto:`). -/
theorem c9_norm_url_amended :
    (∀ u v : String, norm_url u = some v → norm_url v = some v) ∧
    (∀ u : String, "http".data.isPrefixOf u.data = true →
      norm_url u = some u) ∧
    (∀ rest : List Char, rest ≠ [] → rest.all plainSeg = true →
      norm_url ⟨'/' :: rest⟩ =
        some ⟨"https://roachag.com".data ++ '/' :: rest⟩) ∧
    norm_url "mailto:info@roachag.com" = some "mailto:info@roachag.com" := by
  refine ⟨?_, norm_url_http_passthrough, norm_url_relative_resolve,
    by decide⟩
  intro u v h
  unfold norm_url at h
  by_cases h0 : u.data.isEmpty = true
  · rw [if_pos h0] at h
    have hv : v = "" := by
      have h2 : "" = v := by simpa using h
      exact h2.symm
    subst hv
    decide
  · rw [if_neg h0] at h
    by_cases h1 : "http".data.isPrefixOf u.data = true
    · rw [if_pos h1] at h
      have hv : v = u := by
        have h2 : u = v := by simpa using h
        exact h2.symm
      subst hv
      exact norm_url_http_passthrough v h1
    · rw [if_neg h1] at h
      rcases hub : urljoinBase u.data with _ | r
      · rw [hub] at h; cases h
      · rw [hub] at h
        simp only [Option.map_some'] at h
        have hv : v = ⟨r⟩ := by simpa using h.symm
        subst hv
        rcases urljoinBase_cases hub with hpre | heq
        · exact norm_url_http_passthrough _ hpre
        · have hvu : (⟨r⟩ : String) = u := by rw [heq]
          rw [hvu]
          unfold norm_url
          rw [if_neg h0, if_neg h1, hub]
          rw [Option.map_some']
          rw [hvu]

/-- Witness: the amended C9 theorem applied at concrete inputs. -/
theorem c9_norm_url_amended_witness :
    norm_url "https://roachag.com/x" = some "https://roachag.com/x" ∧
    norm_url "/Resources" = some "https://roachag.com/Resources" ∧
    norm_url "https://roachag.com/Resources" =
      some "https://roachag.com/Resources" := by
  refine ⟨c9_norm_url_amended.2.1 _ (by decide), ?_, ?_⟩
  · exact c9_norm_url_amended.2.2.1 "Resources".data (by decide) (by decide)
  · exact c9_norm_url_amended.1 "/Resources" _ (by decide)

/-! ## `to_iso_date` (lines 192-203)

`datetime.strptime(ds, fmt)` compiles the format to a regular expression:
`%B` matches a full month name case-insensitively, `%d` matches
`3[01]|[12]\d|0[1-9]|[1-9]`, `%Y` matches exactly four digits, literal
whitespace in the format matches `\s+`, and the whole string must match.
A successful regex match is then validated by the `datetime` constructor
(month 1-12, day within the month, year ≥ 1); a validation failure raises
`ValueError`, which `to_iso_date` catches like a match failure. -/

def MONTHS : List (Nat × String) :=
  [(1, "January"), (2, "February"), (3, "March"), (4, "April"), (5, "May"),
   (6, "June"), (7, "July"), (8, "August"), (9, "September"),
   (10, "October"), (11, "November"), (12, "December")]

/-- Strip `pre` from the front of `l`, comparing case-insensitively;
return the remainder on success. -/
def ciStripStart : List Char → List Char → Option (List Char)
  | [], l => some l
  | _ :: _, [] => none
  | p :: ps, c :: cs =>
    if p.toLower = c.toLower then ciStripStart ps cs else none

/-- Match one full month name (case-insensitive) at the front of `l`. -/
def monthCi (l : List Char) : Option (Nat × List Char) :=
  MONTHS.findSome? fun mp =>
    (ciStripStart mp.2.data l).map (fun r => (mp.1, r))

/-- Regex `\s+`: at least one whitespace character, consumed greedily. -/
def ws1 : List Char → Option (List Char)
  | [] => none
  | c :: rest => if isPySpace c then some (rest.dropWhile isPySpace) else none

/-- The candidate parses of `%d` (`3[01]|[12]\d|0[1-9]|[1-9]`), in the
order the regex engine tries them (two-character alternatives first,
then the bare single digit as backtracking fallback). -/
def dayCands : List Char → List (Nat × List Char)
  | [] => []
  | [c] => if '1' ≤ c && c ≤ '9' then [(c.toNat - 48, [])] else []
  | c1 :: c2 :: rest =>
    let two :=
      if c1 = '3' && (c2 = '0' || c2 = '1') then
        [(30 + (c2.toNat - 48), rest)]
      else if (c1 = '1' || c1 = '2') && c2.isDigit then
        [((c1.toNat - 48) * 10 + (c2.toNat - 48), rest)]
      else if c1 = '0' && ('1' ≤ c2 && c2 ≤ '9') then
        [(c2.toNat - 48, rest)]
      else []
    let one :=
      if '1' ≤ c1 && c1 ≤ '9' then [(c1.toNat - 48, c2 :: rest)] else []
    two ++ one

def expectChar (c : Char) : List Char → Option (List Char)
  | [] => none
  | x :: rest => if x = c then some rest else none

/-- Regex `\d\d\d\d` (the `%Y` pattern): exactly four digits. -/
def year4 : List Char → Option (Nat × List Char)
  | a :: b :: c :: d :: rest =>
    if a.isDigit && b.isDigit && c.isDigit && d.isDigit then
      some ((a.toNat - 48) * 1000 + (b.toNat - 48) * 100 +
            (c.toNat - 48) * 10 + (d.toNat - 48), rest)
    else none
  | _ => none

def isLeap (y : Nat) : Bool :=
  y % 4 = 0 && (y % 100 ≠ 0 || y % 400 = 0)

def daysInMonth (m y : Nat) : Nat :=
  if m = 2 then (if isLeap y then 29 else 28)
  else if m = 4 || m = 6 || m = 9 || m = 11 then 30
  else 31

/-- The `datetime(year, month, day)` constructor check: raises unless
`MINYEAR ≤ year ≤ MAXYEAR`, `1 ≤ month ≤ 12`, `1 ≤ day ≤` days in month. -/
def mkDate (y m d : Nat) : Option (Nat × Nat × Nat) :=
  if 1 ≤ y ∧ y ≤ 9999 ∧ 1 ≤ m ∧ m ≤ 12 ∧ 1 ≤ d ∧ d ≤ daysInMonth m y then
    some (y, m, d)
  else none

/-- The regex part of `strptime(ds, "%B %d, %Y")`. -/
def strptimeRegexBdY (l : List Char) : Option (Nat × Nat × Nat) :=
  (monthCi l).bind fun mr =>
  (ws1 mr.2).bind fun r2 =>
  (dayCands r2).findSome? fun dr =>
  (expectChar ',' dr.2).bind fun r4 =>
  (ws1 r4).bind fun r5 =>
  (year4 r5).bind fun yr =>
  if yr.2.isEmpty then some (yr.1, mr.1, dr.1) else none

/-- The regex part of `strptime(ds, "%d %B %Y")`. -/
def strptimeRegexdBY (l : List Char) : Option (Nat × Nat × Nat) :=
  (dayCands l).findSome? fun dr =>
  (ws1 dr.2).bind fun r2 =>
  (monthCi r2).bind fun mr =>
  (ws1 mr.2).bind fun r4 =>
  (year4 r4).bind fun yr =>
  if yr.2.isEmpty then some (yr.1, mr.1, dr.1) else none

def strptime_B_d_Y (l : List Char) : Option (Nat × Nat × Nat) :=
  (strptimeRegexBdY l).bind fun r => mkDate r.1 r.2.1 r.2.2

def strptime_d_B_Y (l : List Char) : Option (Nat × Nat × Nat) :=
  (strptimeRegexdBY l).bind fun r => mkDate r.1 r.2.1 r.2.2

/-- `strftime("%Y-%m-%d 10:00")` zero-padding.  (`%Y`'s padding of years
below 1000 is platform-defined; the model uses the zero-padded form of
the platform the script documents.  Only a 4-digit year can parse, so
this affects years 0001-0999 alone, which no claim involves.) -/
def pad2 (n : Nat) : String := if n < 10 then "0" ++ toString n else toString n

def pad4 (n : Nat) : String :=
  (if n < 10 then "000" else if n < 100 then "00"
   else if n < 1000 then "0" else "") ++ toString n

def fmtIso (y m d : Nat) : String :=
  pad4 y ++ "-" ++ pad2 m ++ "-" ++ pad2 d ++ " 10:00"

/-- `to_iso_date` (lines 192-203): normalize, try the two formats in
order, fall back to the normalized input. -/
def to_iso_date (date_str : String) : String :=
  let ds := normalize_spaces date_str
  match strptime_B_d_Y ds.data with
  | some r => fmtIso r.1 r.2.1 r.2.2
  | none =>
    match strptime_d_B_Y ds.data with
    | some r => fmtIso r.1 r.2.1 r.2.2
    | none => ds

/-! ## `parse_listing` ordering (lines 108, 175-184)

The link-collection phase (lines 123-173) parses HTML and produces
`all_links`, a list of `(full_url, text, has_year)` triples in discovery
order with `has_year = bool(YEAR_RE.search(text))`.  Lines 175-184 sort
that list stably on the key `(not has_year, original_index)` and keep the
first 10.  CPython's `list.sort` is stable, and on this key — whose
second component is the position produced by `enumerate`, so all keys are
distinct — the sorted permutation is unique; the insertion sort below
therefore computes exactly the same list. -/

/-- Python `\w` (ASCII range; the titles compared are ASCII). -/
def isWordChar (c : Char) : Bool := c.isAlphanum || c = '_'

/-- `\b20\d\d` anchored at the front of `l` (with the following word
boundary); `prev` is the character before `l`, used for the leading
word boundary. -/
def yearAtFront (prev : Option Char) (l : List Char) : Bool :=
  (match prev with | none => true | some p => !isWordChar p) &&
  match l with
  | a :: b :: c :: d :: rest =>
    a = '2' && b = '0' && c.isDigit && d.isDigit &&
    (match rest with | [] => true | e :: _ => !isWordChar e)
  | _ => false

def hasYearAux (prev : Option Char) (l : List Char) : Bool :=
  yearAtFront prev l ||
  match l with
  | [] => false
  | c :: rest => hasYearAux (some c) rest

/-- `bool(YEAR_RE.search(text))` (lines 108, 137, 172):
does the title contain a 4-digit year token starting with "20"? -/
def hasYearTitle (t : String) : Bool := hasYearAux none t.data

/-- One element of `all_links`: `(full_url, text, has_year)`. -/
abbrev Cand := String × String × Bool

/-- The sort key comparison: `(not x.has_year, x.index)` lexicographically
below `(not y.has_year, y.index)`. -/
def keyLt (x y : Nat × Cand) : Bool :=
  (x.2.2.2 && !y.2.2.2) || ((x.2.2.2 == y.2.2.2) && Nat.blt x.1 y.1)

def insertByKey (x : Nat × Cand) : List (Nat × Cand) → List (Nat × Cand)
  | [] => [x]
  | y :: ys => if keyLt x y then x :: y :: ys else y :: insertByKey x ys

def sortByKey : List (Nat × Cand) → List (Nat × Cand)
  | [] => []
  | x :: xs => insertByKey x (sortByKey xs)

/-- Lines 175-184 of `parse_listing`: enumerate, stable-sort on
`(not has_year, index)`, drop the indices, truncate to 10, and project
each triple to `(url, title)`. -/
def parse_listing_order (all_links : List Cand) : List (String × String) :=
  let sorted := sortByKey all_links.enum
  ((sorted.map (·.2)).take 10).map (fun c => (c.1, c.2.1))

theorem insertByKey_year {n : Nat} {c : Cand} (S : List (Nat × Cand))
    (hS : ∀ p ∈ S, n < p.1) (hc : c.2.2 = true) :
    insertByKey (n, c) S = (n, c) :: S := by
  cases S with
  | nil => rfl
  | cons y ys =>
    have hk : keyLt (n, c) y = true := by
      unfold keyLt
      cases hy : y.2.2.2 with
      | false => simp [hc, hy]
      | true =>
        have := hS y (by simp)
        simp [hc, hy, Nat.blt_eq, this]
    unfold insertByKey
    rw [hk]
    simp

theorem insertByKey_nonyear {n : Nat} {c : Cand} (Y N : List (Nat × Cand))
    (hY : ∀ p ∈ Y, p.2.2.2 = true) (hN : ∀ p ∈ N, n < p.1)
    (hNy : ∀ p ∈ N, p.2.2.2 = false) (hc : c.2.2 = false) :
    insertByKey (n, c) (Y ++ N) = Y ++ (n, c) :: N := by
  induction Y with
  | nil =>
    simp only [List.nil_append]
    cases N with
    | nil => rfl
    | cons h t =>
      have hk : keyLt (n, c) h = true := by
        have h1 := hN h (by simp)
        have h2 := hNy h (by simp)
        unfold keyLt
        simp [hc, h2, Nat.blt_eq, h1]
      unfold insertByKey
      rw [hk]
      simp
  | cons y Y ih =>
    have hy := hY y (by simp)
    have hk : keyLt (n, c) y = false := by
      unfold keyLt
      simp [hc, hy]
    simp only [List.cons_append]
    unfold insertByKey
    rw [hk]
    simp only [Bool.false_eq_true, if_false, List.cons.injEq, true_and]
    exact ih (fun p hp => hY p (by simp [hp]))

theorem sortByKey_enumFrom (links : List Cand) :
    ∀ n, sortByKey (List.enumFrom n links) =
      (List.enumFrom n links).filter (fun p => p.2.2.2) ++
      (List.enumFrom n links).filter (fun p => !p.2.2.2) := by
  induction links with
  | nil => intro n; rfl
  | cons c ls ih =>
    intro n
    have hidx : ∀ p ∈ List.enumFrom (n + 1) ls, n < p.1 := by
      intro p hp
      have := List.le_fst_of_mem_enumFrom hp
      omega
    have hYmem : ∀ p ∈ (List.enumFrom (n + 1) ls).filter
        (fun p => p.2.2.2), p.2.2.2 = true := by
      intro p hp
      simpa using (List.of_mem_filter hp)
    have hNmem : ∀ p ∈ (List.enumFrom (n + 1) ls).filter
        (fun p => !p.2.2.2), p.2.2.2 = false := by
      intro p hp
      simpa using (List.of_mem_filter hp)
    have hNidx : ∀ p ∈ (List.enumFrom (n + 1) ls).filter
        (fun p => !p.2.2.2), n < p.1 := by
      intro p hp
      exact hidx p (List.mem_of_mem_filter hp)
    have hS : ∀ p ∈ (List.enumFrom (n + 1) ls).filter (fun p => p.2.2.2) ++
        (List.enumFrom (n + 1) ls).filter (fun p => !p.2.2.2), n < p.1 := by
      intro p hp
      rcases List.mem_append.mp hp with h | h
      · exact hidx p (List.mem_of_mem_filter h)
      · exact hidx p (List.mem_of_mem_filter h)
    rw [List.enumFrom_cons]
    show insertByKey (n, c) (sortByKey (List.enumFrom (n + 1) ls)) = _
    rw [ih (n + 1)]
    cases hc : c.2.2 with
    | true =>
      rw [insertByKey_year _ hS hc]
      simp [List.filter_cons, hc]
    | false =>
      rw [insertByKey_nonyear _ _ hYmem hNidx hNmem hc]
      simp [List.filter_cons, hc]

theorem map_snd_filter_enumFrom (P : Cand → Bool) (links : List Cand) :
    ∀ n, (((List.enumFrom n links).filter (fun p => P p.2)).map (·.2)) =
      links.filter P := by
  induction links with
  | nil => intro n; rfl
  | cons c ls ih =>
    intro n
    rw [List.enumFrom_cons]
    cases hc : P c with
    | true => simp [List.filter_cons, hc, ih (n + 1)]
    | false => simp [List.filter_cons, hc, ih (n + 1)]

/-- C3: `parse_listing` returns its candidates stable-sorted so that all
links whose title contains a 4-digit year token precede all links whose
title does not, each group preserving discovery order, truncated to the
first 10: the result is exactly the year-bearing candidates in original
order, then the rest in original order, cut to 10.  In particular, for 12
candidates with year tokens at original positions 2, 5 and 9, the output
is candidates 2, 5, 9 followed by candidates 0, 1, 3, 4, 6, 7, 8. -/
theorem c3_parse_listing_order :
    (∀ all_links : List Cand,
      parse_listing_order all_links =
        (((all_links.filter (fun c => c.2.2)) ++
          (all_links.filter (fun c => !c.2.2))).take 10).map
            (fun c => (c.1, c.2.1))) ∧
    (let t : Nat → String := fun i =>
      match i with
      | 0 => "Corn Market Commentary"
      | 1 => "Weekly Grain Outlook"
      | 2 => "USDA Update March 2025"
      | 3 => "Soybean Export Notes"
      | 4 => "Wheat Basis Report"
      | 5 => "Sell Signals 2024 Review"
      | 6 => "Cattle Market Brief"
      | 7 => "Planting Progress Notes"
      | 8 => "Harvest Weather Watch"
      | 9 => "WASDE Recap May 2023"
      | 10 => "Dairy Margin Update"
      | _ => "Fertilizer Price Check"
    let cand : Nat → Cand := fun i => (toString i, t i, hasYearTitle (t i))
    (hasYearTitle (t 2) = true ∧ hasYearTitle (t 5) = true ∧
      hasYearTitle (t 9) = true ∧
      ∀ i ∈ [0, 1, 3, 4, 6, 7, 8, 10, 11], hasYearTitle (t i) = false) ∧
    parse_listing_order
        [cand 0, cand 1, cand 2, cand 3, cand 4, cand 5, cand 6, cand 7,
         cand 8, cand 9, cand 10, cand 11] =
      [(toString 2, t 2), (toString 5, t 5), (toString 9, t 9),
       (toString 0, t 0), (toString 1, t 1), (toString 3, t 3),
       (toString 4, t 4), (toString 6, t 6), (toString 7, t 7),
       (toString 8, t 8)]) := by
  constructor
  · intro all_links
    unfold parse_listing_order
    have henum : all_links.enum = List.enumFrom 0 all_links := rfl
    rw [henum, sortByKey_enumFrom]
    dsimp only
    rw [List.map_append,
      map_snd_filter_enumFrom (fun c => c.2.2) all_links 0,
      map_snd_filter_enumFrom (fun c => !c.2.2) all_links 0]
  · exact ⟨⟨by decide, by decide, by decide, by decide⟩, by decide⟩

/-- Strip `pre` from the front of `l` comparing exactly. -/
def stripExact : List Char → List Char → Option (List Char)
  | [], l => some l
  | _ :: _, [] => none
  | p :: ps, c :: cs => if p = c then stripExact ps cs else none

/-- The claim's first date shape, from the spec's words: a full month
name, a space, a one-or-two-digit day, a comma and a space, and a
four-digit year. -/
def shapeMonthDY (s : String) : Bool :=
  MONTHS.any fun mp =>
    match stripExact (mp.2.data ++ [' ']) s.data with
    | none => false
    | some r =>
      let day := r.takeWhile Char.isDigit
      let rest := r.dropWhile Char.isDigit
      (day.length = 1 || day.length = 2) &&
      match stripExact [',', ' '] rest with
      | none => false
      | some r2 => r2.length = 4 && r2.all Char.isDigit

/-! ### Character-class facts used to relate the `strptime` regex to the
plain reading of the two date shapes -/

theorem char_digit_bounds {c : Char} (h : c.isDigit = true) :
    48 ≤ c.toNat ∧ c.toNat ≤ 57 := by
  unfold Char.isDigit at h
  rw [Bool.and_eq_true, decide_eq_true_eq, decide_eq_true_eq] at h
  exact ⟨h.1, h.2⟩

theorem char_isDigit_of_bounds {c : Char} (h1 : 48 ≤ c.toNat)
    (h2 : c.toNat ≤ 57) : c.isDigit = true := by
  unfold Char.isDigit
  rw [Bool.and_eq_true, decide_eq_true_eq, decide_eq_true_eq]
  exact ⟨h1, h2⟩

theorem char_eq_of_toNat_eq {c d : Char} (h : c.toNat = d.toNat) : c = d :=
  Char.eq_of_val_eq (UInt32.ext h)

theorem isPySpace_digit_false {c : Char} (h : c.isDigit = true) :
    isPySpace c = false := by
  obtain ⟨h1, h2⟩ := char_digit_bounds h
  cases hsp : isPySpace c with
  | false => rfl
  | true =>
    exfalso
    unfold isPySpace at hsp
    simp only [Bool.or_eq_true, Bool.and_eq_true, decide_eq_true_eq] at hsp
    omega

theorem ws1_digit_none {c : Char} (h : c.isDigit = true) (t : List Char) :
    ws1 (c :: t) = none := by
  unfold ws1
  dsimp only
  rw [isPySpace_digit_false h]
  rfl

theorem expectChar_comma_digit_none {c : Char} (h : c.isDigit = true)
    (t : List Char) : expectChar ',' (c :: t) = none := by
  have hne : ¬ (c = ',') := by
    intro he
    rw [he] at h
    exact absurd h (by decide)
  unfold expectChar
  dsimp only
  rw [if_neg hne]

theorem takeWhile_len_le (p : Char → Bool) :
    ∀ l : List Char, (l.takeWhile p).length ≤ l.length := by
  intro l
  induction l with
  | nil => simp [List.takeWhile]
  | cons c t ih =>
    cases hp : p c with
    | true =>
      rw [List.takeWhile_cons_of_pos hp]
      simpa using ih
    | false =>
      rw [List.takeWhile_cons_of_neg (by simp [hp])]
      simp

theorem daysInMonth_le_31 (m y : Nat) : daysInMonth m y ≤ 31 := by
  unfold daysInMonth
  split
  · split <;> omega
  · split <;> omega

/-! ### The amended claim's reading of the two date shapes

`specMonthDY`/`specDMonthY` spell out the amended claim's words: a full
month name (case-insensitive), whitespace, a one-or-two-digit day — read
as the maximal digit run — a comma (resp. whitespace), whitespace, and a
four-digit year ending the text; a recognized shape counts only when it
denotes a valid calendar date.  The theorems following them prove these
readings *equal* to the `strptime` embedding on every input: composing
the `%d` regex alternation (with its backtracking order) and the
whole-match anchor with the `datetime` validation yields exactly the
plain "1-2 digits" / "4 digits" reading. -/

/-- The numeric value of a digit run. -/
def digitsToNat (l : List Char) : Nat :=
  l.foldl (fun a c => a * 10 + (c.toNat - 48)) 0

theorem digitsToNat_one (c : Char) : digitsToNat [c] = c.toNat - 48 := by
  simp [digitsToNat]

theorem digitsToNat_two (c1 c2 : Char) :
    digitsToNat [c1, c2] = (c1.toNat - 48) * 10 + (c2.toNat - 48) := by
  simp [digitsToNat]

theorem digitsToNat_four (a b c d : Char) :
    digitsToNat [a, b, c, d] =
      (a.toNat - 48) * 1000 + (b.toNat - 48) * 100 + (c.toNat - 48) * 10 +
        (d.toNat - 48) := by
  simp [digitsToNat]
  ring

/-- A four-digit year ending the text: the maximal digit run has length
four and nothing follows it. -/
def specYear (r5 : List Char) : Option Nat :=
  if (r5.takeWhile Char.isDigit).length = 4 ∧
      r5.dropWhile Char.isDigit = [] then
    some (digitsToNat (r5.takeWhile Char.isDigit))
  else none

/-- A valid calendar date (the proleptic Gregorian dates `datetime`
accepts: year 1-9999, month 1-12, day within the month). -/
def specValidDate (y m d : Nat) : Option (Nat × Nat × Nat) :=
  if 1 ≤ y ∧ y ≤ 9999 ∧ 1 ≤ m ∧ m ≤ 12 ∧ 1 ≤ d ∧ d ≤ daysInMonth m y then
    some (y, m, d)
  else none

theorem specValidDate_eq_mkDate (y m d : Nat) :
    specValidDate y m d = mkDate y m d := rfl

/-- The shape `Month D, YYYY` of the amended claim, with calendar
validity. -/
def specMonthDY (l : List Char) : Option (Nat × Nat × Nat) :=
  (monthCi l).bind fun mr =>
  (ws1 mr.2).bind fun r2 =>
  let ds := r2.takeWhile Char.isDigit
  if ds.length = 1 ∨ ds.length = 2 then
    (expectChar ',' (r2.dropWhile Char.isDigit)).bind fun r4 =>
    (ws1 r4).bind fun r5 =>
    (specYear r5).bind fun y =>
    specValidDate y mr.1 (digitsToNat ds)
  else none

/-- The shape `D Month YYYY` of the amended claim, with calendar
validity. -/
def specDMonthY (l : List Char) : Option (Nat × Nat × Nat) :=
  let ds := l.takeWhile Char.isDigit
  if ds.length = 1 ∨ ds.length = 2 then
    (ws1 (l.dropWhile Char.isDigit)).bind fun r2 =>
    (monthCi r2).bind fun mr =>
    (ws1 mr.2).bind fun s2 =>
    (specYear s2).bind fun y =>
    specValidDate y mr.1 (digitsToNat ds)
  else none

/-- Both shapes, first one preferred (the order the source tries the two
formats in). -/
def specDate? (ds : String) : Option (Nat × Nat × Nat) :=
  match specMonthDY ds.data with
  | some r => some r
  | none => specDMonthY ds.data

theorem yearEq (r5 : List Char) :
    ((year4 r5).bind fun yr => if yr.2.isEmpty then some yr.1 else none) =
      specYear r5 := by
  unfold specYear
  match r5 with
  | [] => rfl
  | [a] =>
    have hl := takeWhile_len_le Char.isDigit [a]
    rw [if_neg (by intro hc; have := hc.1; simp at hl; omega)]
    rfl
  | [a, b] =>
    have hl := takeWhile_len_le Char.isDigit [a, b]
    rw [if_neg (by intro hc; have := hc.1; simp at hl; omega)]
    rfl
  | [a, b, c] =>
    have hl := takeWhile_len_le Char.isDigit [a, b, c]
    rw [if_neg (by intro hc; have := hc.1; simp at hl; omega)]
    rfl
  | a :: b :: c :: d :: rest =>
    by_cases ha : a.isDigit = true
    case neg =>
      have h4 : year4 (a :: b :: c :: d :: rest) = none := by
        unfold year4
        dsimp only
        rw [if_neg (by simp [ha])]
      rw [h4]
      rw [List.takeWhile_cons_of_neg (by simp [ha]),
        List.dropWhile_cons_of_neg (by simp [ha])]
      rw [if_neg (by intro hc; simp at hc)]
      rfl
    case pos =>
      by_cases hb : b.isDigit = true
      case neg =>
        have h4 : year4 (a :: b :: c :: d :: rest) = none := by
          unfold year4
          dsimp only
          rw [if_neg (by simp [hb])]
        rw [h4]
        rw [List.takeWhile_cons_of_pos ha,
          List.takeWhile_cons_of_neg (by simp [hb])]
        rw [if_neg (by intro hc; simp at hc)]
        rfl
      case pos =>
        by_cases hc : c.isDigit = true
        case neg =>
          have h4 : year4 (a :: b :: c :: d :: rest) = none := by
            unfold year4
            dsimp only
            rw [if_neg (by simp [hc])]
          rw [h4]
          rw [List.takeWhile_cons_of_pos ha, List.takeWhile_cons_of_pos hb,
            List.takeWhile_cons_of_neg (by simp [hc])]
          rw [if_neg (by intro h; simp at h)]
          rfl
        case pos =>
          by_cases hd : d.isDigit = true
          case neg =>
            have h4 : year4 (a :: b :: c :: d :: rest) = none := by
              unfold year4
              dsimp only
              rw [if_neg (by simp [hd])]
            rw [h4]
            rw [List.takeWhile_cons_of_pos ha, List.takeWhile_cons_of_pos hb,
              List.takeWhile_cons_of_pos hc,
              List.takeWhile_cons_of_neg (by simp [hd])]
            rw [if_neg (by intro h; simp at h)]
            rfl
          case pos =>
            have h4 : year4 (a :: b :: c :: d :: rest) =
                some ((a.toNat - 48) * 1000 + (b.toNat - 48) * 100 +
                  (c.toNat - 48) * 10 + (d.toNat - 48), rest) := by
              unfold year4
              dsimp only
              rw [if_pos (by simp [ha, hb, hc, hd])]
            rw [h4]
            rw [List.takeWhile_cons_of_pos ha, List.takeWhile_cons_of_pos hb,
              List.takeWhile_cons_of_pos hc, List.takeWhile_cons_of_pos hd,
              List.dropWhile_cons_of_pos ha, List.dropWhile_cons_of_pos hb,
              List.dropWhile_cons_of_pos hc, List.dropWhile_cons_of_pos hd]
            cases rest with
            | nil =>
              simp only [List.takeWhile_nil, List.dropWhile_nil]
              rw [if_pos (by constructor <;> trivial)]
              rw [digitsToNat_four]
              rfl
            | cons e t =>
              by_cases he : e.isDigit = true
              · rw [List.takeWhile_cons_of_pos he]
                rw [if_neg (by
                  intro h
                  have := h.1
                  simp at this)]
                rfl
              · rw [List.takeWhile_cons_of_neg (by simp [he]),
                  List.dropWhile_cons_of_neg (by simp [he])]
                rw [if_neg (by intro h; simp at h)]
                rfl

/-- Two leading digits: composing the day alternation of `%d` (in its
backtracking order) with any continuation that fails on a digit-headed
remainder (both separators do) and, after `g`, on day values outside
1-31 (the `datetime` validation does) collapses to the plain two-digit
reading.  Holds for every tail. -/
theorem day2_eq (Kr : Nat × List Char → Option (Nat × Nat × Nat))
    (g : Nat × Nat × Nat → Option (Nat × Nat × Nat))
    (hdig : ∀ d (c : Char) t, c.isDigit = true → Kr (d, c :: t) = none)
    (hval : ∀ d rest, d = 0 ∨ 32 ≤ d → (Kr (d, rest)).bind g = none)
    (c1 c2 : Char) (tail : List Char)
    (h1 : c1.isDigit = true) (h2 : c2.isDigit = true) :
    ((dayCands (c1 :: c2 :: tail)).findSome? Kr).bind g =
      (Kr ((c1.toNat - 48) * 10 + (c2.toNat - 48), tail)).bind g := by
  have hb1 := char_digit_bounds h1
  have hb2 := char_digit_bounds h2
  unfold dayCands
  dsimp only
  by_cases hA : (c1 = '3' && (c2 = '0' || c2 = '1')) = true
  · rw [if_pos hA]
    simp only [Bool.and_eq_true, Bool.or_eq_true, decide_eq_true_eq] at hA
    obtain ⟨hA1, hA2⟩ := hA
    subst hA1
    rw [show (('1' ≤ ('3' : Char) && ('3' : Char) ≤ '9') : Bool) = true from
      by decide]
    have hv : (('3' : Char).toNat - 48) * 10 + (c2.toNat - 48) =
        30 + (c2.toNat - 48) := by
      have h3 : ('3' : Char).toNat = 51 := rfl
      rw [h3]
    rw [hv]
    simp only [List.singleton_append]
    rw [List.findSome?_cons]
    cases hk : Kr (30 + (c2.toNat - 48), tail) with
    | some v => simp [hk]
    | none => simp [hdig, h2]
  · rw [if_neg hA]
    by_cases hB : ((c1 = '1' || c1 = '2') && c2.isDigit) = true
    · rw [if_pos hB]
      have h19 : (('1' ≤ c1 && c1 ≤ '9') : Bool) = true := by
        simp only [Bool.and_eq_true, Bool.or_eq_true, decide_eq_true_eq]
          at hB
        rcases hB.1 with h | h <;> subst h <;> decide
      rw [h19]
      simp only [List.singleton_append]
      rw [List.findSome?_cons]
      cases hk : Kr ((c1.toNat - 48) * 10 + (c2.toNat - 48), tail) with
      | some v => simp [hk]
      | none => simp [hdig, h2]
    · rw [if_neg hB]
      by_cases hC : (c1 = '0' && ('1' ≤ c2 && c2 ≤ '9')) = true
      · rw [if_pos hC]
        simp only [Bool.and_eq_true, decide_eq_true_eq] at hC
        obtain ⟨hC1, _⟩ := hC
        subst hC1
        rw [show (('1' ≤ ('0' : Char) && ('0' : Char) ≤ '9') : Bool) = false
          from by decide]
        have hv : (('0' : Char).toNat - 48) * 10 + (c2.toNat - 48) =
            c2.toNat - 48 := by
          have h0 : ('0' : Char).toNat = 48 := rfl
          rw [h0]
          omega
        rw [hv]
        cases hk : Kr (c2.toNat - 48, tail) with
        | some v => simp [hk]
        | none => simp [hk]
      · rw [if_neg hC]
        simp only [List.nil_append]
        have hdval : (c1.toNat - 48) * 10 + (c2.toNat - 48) = 0 ∨
            32 ≤ (c1.toNat - 48) * 10 + (c2.toNat - 48) := by
          have nA : ¬ (c1.toNat = 51 ∧ (c2.toNat = 48 ∨ c2.toNat = 49)) := by
            rintro ⟨x, y⟩
            apply hA
            simp only [Bool.and_eq_true, Bool.or_eq_true, decide_eq_true_eq]
            refine ⟨char_eq_of_toNat_eq x, ?_⟩
            rcases y with y | y
            · exact Or.inl (char_eq_of_toNat_eq y)
            · exact Or.inr (char_eq_of_toNat_eq y)
          have nB : ¬ (c1.toNat = 49 ∨ c1.toNat = 50) := by
            rintro (x | x) <;>
            · apply hB
              simp only [Bool.and_eq_true, Bool.or_eq_true,
                decide_eq_true_eq]
              exact ⟨by first
                | exact Or.inl (char_eq_of_toNat_eq x)
                | exact Or.inr (char_eq_of_toNat_eq x), h2⟩
          have nC : ¬ (c1.toNat = 48 ∧ (49 ≤ c2.toNat ∧ c2.toNat ≤ 57)) := by
            rintro ⟨x, y1, y2⟩
            apply hC
            simp only [Bool.and_eq_true, decide_eq_true_eq]
            exact ⟨char_eq_of_toNat_eq x, y1, y2⟩
          omega
        by_cases h19 : (('1' ≤ c1 && c1 ≤ '9') : Bool) = true
        · rw [if_pos h19]
          rw [List.findSome?_cons, hdig _ c2 tail h2]
          simp only [List.findSome?_nil]
          rw [Option.none_bind, hval _ tail hdval]
        · rw [if_neg h19]
          simp only [List.findSome?_nil]
          rw [Option.none_bind, hval _ tail hdval]

/-- The day alternation of `%d`, composed with a continuation as in
`day2_eq`, reads exactly the maximal digit run when it has one or two
digits and fails otherwise. -/
theorem dayCands_pipe (Kr : Nat × List Char → Option (Nat × Nat × Nat))
    (g : Nat × Nat × Nat → Option (Nat × Nat × Nat))
    (hdig : ∀ d (c : Char) t, c.isDigit = true → Kr (d, c :: t) = none)
    (hval : ∀ d rest, d = 0 ∨ 32 ≤ d → (Kr (d, rest)).bind g = none) :
    ∀ r2 : List Char,
      ((dayCands r2).findSome? Kr).bind g =
        if (r2.takeWhile Char.isDigit).length = 1 ∨
            (r2.takeWhile Char.isDigit).length = 2 then
          (Kr (digitsToNat (r2.takeWhile Char.isDigit),
            r2.dropWhile Char.isDigit)).bind g
        else none := by
  intro r2
  match r2 with
  | [] => simp [dayCands]
  | [c] =>
    by_cases hc : c.isDigit = true
    · have hb := char_digit_bounds hc
      rw [show List.takeWhile Char.isDigit [c] = [c] from by
        simp [List.takeWhile, hc]]
      rw [show List.dropWhile Char.isDigit [c] = [] from by
        simp [List.dropWhile, hc]]
      have hcond : ([c] : List Char).length = 1 ∨
          ([c] : List Char).length = 2 := Or.inl rfl
      rw [if_pos hcond, digitsToNat_one]
      unfold dayCands
      dsimp only
      by_cases h19 : (('1' ≤ c && c ≤ '9') : Bool) = true
      · rw [if_pos h19]
        rw [List.findSome?_cons]
        cases hk : Kr (c.toNat - 48, []) with
        | some v => simp [hk]
        | none => simp [hk]
      · rw [if_neg h19]
        have hc0 : c.toNat - 48 = 0 := by
          rw [Bool.and_eq_true, decide_eq_true_eq, decide_eq_true_eq] at h19
          have h49 : ¬ (49 ≤ c.toNat ∧ c.toNat ≤ 57) := h19
          omega
        rw [hc0, hval 0 [] (Or.inl rfl)]
        simp
    · rw [show List.takeWhile Char.isDigit [c] = ([] : List Char) from by
        simp [List.takeWhile, hc]]
      rw [if_neg (by simp)]
      have h19 : (('1' ≤ c && c ≤ '9') : Bool) = false := by
        cases hb : (('1' ≤ c && c ≤ '9') : Bool) with
        | false => rfl
        | true =>
          exfalso
          rw [Bool.and_eq_true, decide_eq_true_eq, decide_eq_true_eq] at hb
          have hx : 49 ≤ c.toNat := hb.1
          have hy : c.toNat ≤ 57 := hb.2
          exact hc (char_isDigit_of_bounds (by omega) hy)
      unfold dayCands
      dsimp only
      rw [h19]
      simp
  | c1 :: c2 :: rest =>
    by_cases h1 : c1.isDigit = true
    case neg =>
      rw [List.takeWhile_cons_of_neg (by simp [h1])]
      rw [if_neg (by simp)]
      have hne : ∀ d : Char, d.isDigit = true → ¬ (c1 = d) :=
        fun d hd he => h1 (by rw [he]; exact hd)
      have h19 : (('1' ≤ c1 && c1 ≤ '9') : Bool) = false := by
        cases hb : (('1' ≤ c1 && c1 ≤ '9') : Bool) with
        | false => rfl
        | true =>
          exfalso
          rw [Bool.and_eq_true, decide_eq_true_eq, decide_eq_true_eq] at hb
          have hx : 49 ≤ c1.toNat := hb.1
          have hy : c1.toNat ≤ 57 := hb.2
          exact h1 (char_isDigit_of_bounds (by omega) hy)
      unfold dayCands
      dsimp only
      simp [hne '3' (by decide), hne '1' (by decide), hne '2' (by decide),
        hne '0' (by decide), h19]
    case pos =>
      by_cases h2 : c2.isDigit = true
      case neg =>
        rw [show List.takeWhile Char.isDigit (c1 :: c2 :: rest) = [c1] from by
          simp [List.takeWhile, h1, h2]]
        rw [show List.dropWhile Char.isDigit (c1 :: c2 :: rest) =
            c2 :: rest from by simp [List.dropWhile, h1, h2]]
        have hcond : ([c1] : List Char).length = 1 ∨
            ([c1] : List Char).length = 2 := Or.inl rfl
        rw [if_pos hcond, digitsToNat_one]
        have hc2f : c2.isDigit = false := by simpa using h2
        have hc2ne : ∀ d : Char, d.isDigit = true → ¬ (c2 = d) :=
          fun d hd he => h2 (by rw [he]; exact hd)
        have hc2r : (('1' ≤ c2 && c2 ≤ '9') : Bool) = false := by
          cases hb : (('1' ≤ c2 && c2 ≤ '9') : Bool) with
          | false => rfl
          | true =>
            exfalso
            rw [Bool.and_eq_true, decide_eq_true_eq, decide_eq_true_eq]
              at hb
            have hx : 49 ≤ c2.toNat := hb.1
            have hy : c2.toNat ≤ 57 := hb.2
            exact h2 (char_isDigit_of_bounds (by omega) hy)
        unfold dayCands
        dsimp only
        rw [show ((c1 = '3' && (c2 = '0' || c2 = '1')) : Bool) = false from by
          simp [hc2ne '0' (by decide), hc2ne '1' (by decide)]]
        rw [show (((c1 = '1' || c1 = '2') && c2.isDigit) : Bool) = false
          from by simp [hc2f]]
        rw [show ((c1 = '0' && ('1' ≤ c2 && c2 ≤ '9')) : Bool) = false
          from by simp [hc2r]]
        simp only [if_false, Bool.false_eq_true, List.nil_append]
        by_cases h19 : (('1' ≤ c1 && c1 ≤ '9') : Bool) = true
        · rw [if_pos h19]
          rw [List.findSome?_cons]
          cases hk : Kr (c1.toNat - 48, c2 :: rest) with
          | some v => simp [hk]
          | none => simp [hk]
        · rw [if_neg h19]
          have hb1 := char_digit_bounds h1
          have hc0 : c1.toNat - 48 = 0 := by
            rw [Bool.and_eq_true, decide_eq_true_eq, decide_eq_true_eq]
              at h19
            have h49 : ¬ (49 ≤ c1.toNat ∧ c1.toNat ≤ 57) := h19
            omega
          rw [hc0, hval 0 (c2 :: rest) (Or.inl rfl)]
          simp
      case pos =>
        rw [show List.takeWhile Char.isDigit (c1 :: c2 :: rest) =
            c1 :: c2 :: List.takeWhile Char.isDigit rest from by
          simp [List.takeWhile, h1, h2]]
        rw [show List.dropWhile Char.isDigit (c1 :: c2 :: rest) =
            List.dropWhile Char.isDigit rest from by
          simp [List.dropWhile, h1, h2]]
        cases rest with
        | nil =>
          simp only [List.takeWhile_nil, List.dropWhile_nil]
          have hcond : ([c1, c2] : List Char).length = 1 ∨
              ([c1, c2] : List Char).length = 2 := Or.inr rfl
          rw [if_pos hcond, digitsToNat_two]
          exact day2_eq Kr g hdig hval c1 c2 [] h1 h2
        | cons e t =>
          by_cases he : e.isDigit = true
          · rw [List.takeWhile_cons_of_pos he]
            rw [if_neg (by intro h; rcases h with h | h <;> simp at h)]
            rw [day2_eq Kr g hdig hval c1 c2 (e :: t) h1 h2]
            rw [hdig _ e t he]
            rfl
          · rw [List.takeWhile_cons_of_neg (by simp [he]),
              List.dropWhile_cons_of_neg (by simp [he])]
            have hcond : ([c1, c2] : List Char).length = 1 ∨
                ([c1, c2] : List Char).length = 2 := Or.inr rfl
            rw [if_pos hcond, digitsToNat_two]
            exact day2_eq Kr g hdig hval c1 c2 (e :: t) h1 h2

theorem mkDate_sound {y m d a b c : Nat}
    (h : mkDate y m d = some (a, b, c)) :
    1 ≤ a ∧ 1 ≤ b ∧ b ≤ 12 ∧ 1 ≤ c ∧ c ≤ daysInMonth b a := by
  unfold mkDate at h
  split at h
  · rename_i hc
    cases h
    exact ⟨hc.1, hc.2.2.1, hc.2.2.2.1, hc.2.2.2.2.1, hc.2.2.2.2.2⟩
  · cases h

theorem strptime_B_d_Y_sound {l : List Char} {r : Nat × Nat × Nat}
    (h : strptime_B_d_Y l = some r) :
    1 ≤ r.1 ∧ 1 ≤ r.2.1 ∧ r.2.1 ≤ 12 ∧ 1 ≤ r.2.2 ∧
      r.2.2 ≤ daysInMonth r.2.1 r.1 := by
  unfold strptime_B_d_Y at h
  rcases hreg : strptimeRegexBdY l with _ | r0
  · rw [hreg] at h; cases h
  · rw [hreg] at h
    simp only [Option.some_bind] at h
    obtain ⟨a, b, c⟩ := r
    exact mkDate_sound h

theorem strptime_d_B_Y_sound {l : List Char} {r : Nat × Nat × Nat}
    (h : strptime_d_B_Y l = some r) :
    1 ≤ r.1 ∧ 1 ≤ r.2.1 ∧ r.2.1 ≤ 12 ∧ 1 ≤ r.2.2 ∧
      r.2.2 ≤ daysInMonth r.2.1 r.1 := by
  unfold strptime_d_B_Y at h
  rcases hreg : strptimeRegexdBY l with _ | r0
  · rw [hreg] at h; cases h
  · rw [hreg] at h
    simp only [Option.some_bind] at h
    obtain ⟨a, b, c⟩ := r
    exact mkDate_sound h

theorem mkDate_bad_day (y m d : Nat) (hd : d = 0 ∨ 32 ≤ d) :
    mkDate y m d = none := by
  have h31 := daysInMonth_le_31 m y
  have hno : ¬ (1 ≤ y ∧ y ≤ 9999 ∧ 1 ≤ m ∧ m ≤ 12 ∧ 1 ≤ d ∧
      d ≤ daysInMonth m y) := by omega
  unfold mkDate
  rw [if_neg hno]

/-- In `%B %d, %Y`, a day value that the regex could only produce outside
1-31 is rejected by the `datetime` validation no matter the remainder. -/
theorem bdy_tail_val_none (m d : Nat) (rest : List Char)
    (hd : d = 0 ∨ 32 ≤ d) :
    (((expectChar ',' rest).bind fun r4 =>
      (ws1 r4).bind fun r5 =>
      (year4 r5).bind fun yr =>
      if yr.2.isEmpty then some (yr.1, m, d) else none).bind
        fun r => mkDate r.1 r.2.1 r.2.2) = none := by
  cases expectChar ',' rest with
  | none => rfl
  | some r4 =>
    simp only [Option.some_bind]
    cases ws1 r4 with
    | none => rfl
    | some r5 =>
      simp only [Option.some_bind]
      cases year4 r5 with
      | none => rfl
      | some yr =>
        simp only [Option.some_bind]
        by_cases he : yr.2.isEmpty = true
        · rw [if_pos he]
          simp only [Option.some_bind]
          exact mkDate_bad_day yr.1 m d hd
        · rw [if_neg he]
          rfl

/-- In `%d %B %Y`, a day value outside 1-31 is likewise rejected by the
`datetime` validation no matter the remainder. -/
theorem dby_tail_val_none (d : Nat) (rest : List Char)
    (hd : d = 0 ∨ 32 ≤ d) :
    (((ws1 rest).bind fun r2 =>
      (monthCi r2).bind fun mr =>
      (ws1 mr.2).bind fun r4 =>
      (year4 r4).bind fun yr =>
      if yr.2.isEmpty then some (yr.1, mr.1, d) else none).bind
        fun r => mkDate r.1 r.2.1 r.2.2) = none := by
  cases ws1 rest with
  | none => rfl
  | some r2 =>
    simp only [Option.some_bind]
    cases monthCi r2 with
    | none => rfl
    | some mr =>
      simp only [Option.some_bind]
      cases ws1 mr.2 with
      | none => rfl
      | some r4 =>
        simp only [Option.some_bind]
        cases year4 r4 with
        | none => rfl
        | some yr =>
          simp only [Option.some_bind]
          by_cases he : yr.2.isEmpty = true
          · rw [if_pos he]
            simp only [Option.some_bind]
            exact mkDate_bad_day yr.1 mr.1 d hd
          · rw [if_neg he]
            rfl

theorem bdy_inner_eq (m D : Nat) (R : List Char) :
    (((expectChar ',' R).bind fun r4 =>
      (ws1 r4).bind fun r5 =>
      (year4 r5).bind fun yr =>
      if yr.2.isEmpty then some (yr.1, m, D) else none).bind
        fun r => mkDate r.1 r.2.1 r.2.2) =
      ((expectChar ',' R).bind fun r4 =>
      (ws1 r4).bind fun r5 =>
      (specYear r5).bind fun y =>
      specValidDate y m D) := by
  cases expectChar ',' R with
  | none => rfl
  | some r4 =>
    simp only [Option.some_bind]
    cases ws1 r4 with
    | none => rfl
    | some r5 =>
      simp only [Option.some_bind]
      rw [← yearEq r5]
      cases year4 r5 with
      | none => rfl
      | some yr =>
        simp only [Option.some_bind]
        by_cases he : yr.2.isEmpty = true
        · rw [if_pos he, if_pos he]
          rfl
        · rw [if_neg he, if_neg he]
          rfl

theorem dby_inner_eq (D : Nat) (R : List Char) :
    (((ws1 R).bind fun r2 =>
      (monthCi r2).bind fun mr =>
      (ws1 mr.2).bind fun r4 =>
      (year4 r4).bind fun yr =>
      if yr.2.isEmpty then some (yr.1, mr.1, D) else none).bind
        fun r => mkDate r.1 r.2.1 r.2.2) =
      ((ws1 R).bind fun r2 =>
      (monthCi r2).bind fun mr =>
      (ws1 mr.2).bind fun s2 =>
      (specYear s2).bind fun y =>
      specValidDate y mr.1 D) := by
  cases ws1 R with
  | none => rfl
  | some r2 =>
    simp only [Option.some_bind]
    cases monthCi r2 with
    | none => rfl
    | some mr =>
      simp only [Option.some_bind]
      cases ws1 mr.2 with
      | none => rfl
      | some s2 =>
        simp only [Option.some_bind]
        rw [← yearEq s2]
        cases year4 s2 with
        | none => rfl
        | some yr =>
          simp only [Option.some_bind]
          by_cases he : yr.2.isEmpty = true
          · rw [if_pos he, if_pos he]
            rfl
          · rw [if_neg he, if_neg he]
            rfl

/-- `strptime(ds, "%B %d, %Y")` followed by the `datetime` validation
equals the direct reading of the shape `Month D, YYYY`: the maximal digit
run after the separator is the day (one or two digits), the four-digit
run at the end is the year, and the triple survives exactly when it is a
valid calendar date. -/
theorem strptime_B_d_Y_eq_spec (l : List Char) :
    strptime_B_d_Y l = specMonthDY l := by
  unfold strptime_B_d_Y strptimeRegexBdY specMonthDY
  cases monthCi l with
  | none => rfl
  | some mr =>
    simp only [Option.some_bind]
    cases ws1 mr.2 with
    | none => rfl
    | some r2 =>
      simp only [Option.some_bind]
      rw [dayCands_pipe
        (fun dr => (expectChar ',' dr.2).bind fun r4 =>
          (ws1 r4).bind fun r5 =>
          (year4 r5).bind fun yr =>
          if yr.2.isEmpty then some (yr.1, mr.1, dr.1) else none)
        (fun r => mkDate r.1 r.2.1 r.2.2)
        (fun d c t hc => by simp [expectChar_comma_digit_none hc])
        (fun d rest hd => bdy_tail_val_none mr.1 d rest hd)
        r2]
      by_cases hlen : (r2.takeWhile Char.isDigit).length = 1 ∨
          (r2.takeWhile Char.isDigit).length = 2
      · rw [if_pos hlen, if_pos hlen]
        exact bdy_inner_eq mr.1 (digitsToNat (r2.takeWhile Char.isDigit))
          (r2.dropWhile Char.isDigit)
      · rw [if_neg hlen, if_neg hlen]

/-- `strptime(ds, "%d %B %Y")` followed by the `datetime` validation
equals the direct reading of the shape `D Month YYYY`. -/
theorem strptime_d_B_Y_eq_spec (l : List Char) :
    strptime_d_B_Y l = specDMonthY l := by
  unfold strptime_d_B_Y strptimeRegexdBY specDMonthY
  dsimp only
  rw [dayCands_pipe
    (fun dr => (ws1 dr.2).bind fun r2 =>
      (monthCi r2).bind fun mr =>
      (ws1 mr.2).bind fun r4 =>
      (year4 r4).bind fun yr =>
      if yr.2.isEmpty then some (yr.1, mr.1, dr.1) else none)
    (fun r => mkDate r.1 r.2.1 r.2.2)
    (fun d c t hc => by simp [ws1_digit_none hc])
    (fun d rest hd => dby_tail_val_none d rest hd)
    l]
  by_cases hlen : (l.takeWhile Char.isDigit).length = 1 ∨
      (l.takeWhile Char.isDigit).length = 2
  · rw [if_pos hlen, if_pos hlen]
    exact dby_inner_eq (digitsToNat (l.takeWhile Char.isDigit))
      (l.dropWhile Char.isDigit)
  · rw [if_neg hlen, if_neg hlen]

/-- `to_iso_date` as a whole equals the spec-side description: parse the
normalized input as one of the two date shapes (first `Month D, YYYY`,
then `D Month YYYY`), render a successful parse as ISO, and return the
normalized input itself otherwise. -/
theorem to_iso_date_eq_spec (s : String) :
    to_iso_date s =
      match specDate? (normalize_spaces s) with
      | some r => fmtIso r.1 r.2.1 r.2.2
      | none => normalize_spaces s := by
  unfold to_iso_date specDate?
  dsimp only
  rw [strptime_B_d_Y_eq_spec, strptime_d_B_Y_eq_spec]
  cases specMonthDY (normalize_spaces s).data with
  | some r => rfl
  | none =>
    cases specDMonthY (normalize_spaces s).data with
    | some r => rfl
    | none => rfl

/-- C5 counterexample: `"February 30, 2025"` is of the shape
`Month D, YYYY`, yet `to_iso_date` returns it unchanged (the `datetime`
constructor rejects day 30 of February, `strptime` raises and the code
falls back to the normalized input), not `"2025-02-30 10:00"`. -/
theorem c5_counterexample_invalid_calendar_date :
    shapeMonthDY "February 30, 2025" = true ∧
    to_iso_date "February 30, 2025" = "February 30, 2025" ∧
    ¬ to_iso_date "February 30, 2025" = "2025-02-30 10:00" := by
  refine ⟨by decide, by decide, by decide⟩

/-- C5 (amended): `to_iso_date` maps every input whose normalized form is
one of the two date shapes `Month D, YYYY` / `D Month YYYY` denoting a
valid calendar date (as decided by `specDate?`, the spec-side reading of
the two shapes) to its rendering `YYYY-MM-DD 10:00`, and returns every
other input — including shape-matching but calendar-invalid text such as
`"February 30, 2025"` — whitespace-normalized and otherwise unchanged,
without raising.  In particular `"September 12, 2025"` and
`"12 September 2025"` both map to `"2025-09-12 10:00"` and
`"sometime last week"` is returned unchanged. -/
theorem c5_to_iso_date_amended :
    to_iso_date "September 12, 2025" = "2025-09-12 10:00" ∧
    to_iso_date "12 September 2025" = "2025-09-12 10:00" ∧
    to_iso_date "sometime last week" = "sometime last week" ∧
    to_iso_date "February 30, 2025" = "February 30, 2025" ∧
    (∀ s : String, ∀ y m d : Nat,
      specDate? (normalize_spaces s) = some (y, m, d) →
      to_iso_date s = fmtIso y m d) ∧
    (∀ s : String,
      specDate? (normalize_spaces s) = none →
      to_iso_date s = normalize_spaces s) := by
  refine ⟨by decide, by decide, by decide, by decide, ?_, ?_⟩
  · intro s y m d h
    rw [to_iso_date_eq_spec, h]
  · intro s h
    rw [to_iso_date_eq_spec, h]

/-- Witness for C5: `"October 3, 2024"` reads as the valid date
(2024, 10, 3) and renders as ISO; `"hello world"` reads as no date and is
returned unchanged. -/
theorem c5_to_iso_date_amended_witness :
    (specDate? (normalize_spaces "October 3, 2024") = some (2024, 10, 3) ∧
      to_iso_date "October 3, 2024" = fmtIso 2024 10 3) ∧
    (specDate? (normalize_spaces "hello world") = none ∧
      to_iso_date "hello world" = normalize_spaces "hello world") :=
  ⟨⟨by decide,
    c5_to_iso_date_amended.2.2.2.2.1 "October 3, 2024" 2024 10 3
      (by decide)⟩,
   ⟨by decide,
    c5_to_iso_date_amended.2.2.2.2.2 "hello world" (by decide)⟩⟩

/-! ## Flat document model

BeautifulSoup documents are modelled flatly: a `Page` lists its elements
in document order (`find` / `find_next` traversal order); each element
carries its tag name, its stripped text (`get_text(strip=True)`; for the
leaf-level elements the scraper inspects this coincides with
`get_text(" ", strip=True)`), and the list of its following siblings.  A
sibling block carries what the content walk reads from it: whether it is
a `Tag`, its name, stripped text, the tag names of its descendants, the
stripped texts of its `<a>` descendants, and its serialisation `str(sib)`.
`<a href>` and `<img>` attributes of the whole page are listed in
document order. -/

structure Block where
  isTag : Bool
  name : String
  text : String
  descendantNames : List String
  linkTexts : List String
  html : String
deriving DecidableEq

structure PElem where
  name : String
  text : String
  siblings : List Block
deriving DecidableEq

structure Page where
  elems : List PElem
  links : List (String × String)
  imgs : List (Option String)
deriving DecidableEq

/-- `soup.get_text(" ", strip=True)`: the stripped texts joined with one
space, empty ones skipped. -/
def joinSpace : List String → String
  | [] => ""
  | [s] => s
  | s :: rest => s ++ " " ++ joinSpace rest

def pageText (p : Page) : String :=
  joinSpace ((p.elems.map (fun e => e.text)).filter (fun t => t ≠ ""))

/-! ## `extract_category` (lines 205-207) and `extract_tags` (209-217) -/

def extract_category (p : Page) : String :=
  match p.links.find? (fun l => strIn "Category=" l.1) with
  | some l => l.2
  | none => ""

/-- `list(dict.fromkeys(...))`: drop duplicates keeping the first
occurrence. -/
def dedupGo (seen : List String) : List String → List String
  | [] => []
  | t :: rest =>
    if seen.contains t then dedupGo seen rest
    else t :: dedupGo (t :: seen) rest

def dedupKeepFirst (l : List String) : List String := dedupGo [] l

/-- The heading search of `extract_tags`: first `h3`/`h4`/`h5` whose
stripped text lower-cases to `"tags"`. -/
def tagsHeadingOf (p : Page) : Option PElem :=
  p.elems.find? (fun t =>
    (t.name = "h3" ∨ t.name = "h4" ∨ t.name = "h5") ∧
      pyLower t.text = "tags")

def extract_tags (p : Page) : List String :=
  let cont : Option Block :=
    match tagsHeadingOf p with
    | some h => h.siblings.find? (fun s => s.isTag)
    | none => none
  match cont with
  | none => []
  | some c => dedupKeepFirst (c.linkTexts.filter (fun t => t ≠ ""))

/-! ## `DATE_RE` (lines 186-190) and `extract_date_text` (lines 219-241)

`DATE_RE` is `(?:Month\s+\d{1,2},\s*\d{4}|\d{1,2}\s+Month\s+\d{4})` with
`re.I`: full month names, case-insensitive.  `re.search` returns the
leftmost match; at each position the first alternative is tried first,
and the `\d{1,2}` day is greedy with backtracking.  The matchers below
return the matched text (original casing). -/

/-- Match a full month name case-insensitively at the front; return the
consumed original-case characters and the remainder. -/
def monthCiText (l : List Char) : Option (List Char × List Char) :=
  MONTHS.findSome? fun mp =>
    if (ciStripStart mp.2.data l).isSome then
      some (l.take mp.2.data.length, l.drop mp.2.data.length)
    else none

/-- `\s+`, greedy; returns consumed text and remainder. -/
def ws1m (l : List Char) : Option (List Char × List Char) :=
  match l with
  | [] => none
  | c :: rest =>
    if isPySpace c then
      some (c :: rest.takeWhile isPySpace, rest.dropWhile isPySpace)
    else none

/-- `\d{1,2}` candidates in regex order (greedy two digits first). -/
def dd12 : List Char → List (List Char × List Char)
  | [] => []
  | [c] => if c.isDigit then [([c], [])] else []
  | c1 :: c2 :: rest =>
    (if c1.isDigit && c2.isDigit then [([c1, c2], rest)] else []) ++
    (if c1.isDigit then [([c1], c2 :: rest)] else [])

/-- `\d{4}`: four digits (more may follow). -/
def dddd (l : List Char) : Option (List Char × List Char) :=
  match l with
  | a :: b :: c :: d :: rest =>
    if a.isDigit && b.isDigit && c.isDigit && d.isDigit then
      some ([a, b, c, d], rest)
    else none
  | _ => none

/-- First alternative `Month\s+\d{1,2},\s*\d{4}` anchored at the front. -/
def dateAlt1 (l : List Char) : Option (List Char) :=
  (monthCiText l).bind fun mr =>
  (ws1m mr.2).bind fun sr =>
  (dd12 sr.2).findSome? fun dr =>
  (expectChar ',' dr.2).bind fun r4 =>
  let sp := r4.takeWhile isPySpace
  let r5 := r4.dropWhile isPySpace
  (dddd r5).map fun yr =>
    mr.1 ++ sr.1 ++ dr.1 ++ ',' :: (sp ++ yr.1)

/-- Second alternative `\d{1,2}\s+Month\s+\d{4}` anchored at the front. -/
def dateAlt2 (l : List Char) : Option (List Char) :=
  (dd12 l).findSome? fun dr =>
  (ws1m dr.2).bind fun s1 =>
  (monthCiText s1.2).bind fun mr =>
  (ws1m mr.2).bind fun s2 =>
  (dddd s2.2).map fun yr =>
    dr.1 ++ s1.1 ++ mr.1 ++ s2.1 ++ yr.1

/-- `DATE_RE.search`: leftmost match, first alternative preferred. -/
def dateSearch : List Char → Option (List Char)
  | [] => none
  | c :: rest =>
    match dateAlt1 (c :: rest) with
    | some m => some m
    | none =>
      match dateAlt2 (c :: rest) with
      | some m => some m
      | none => dateSearch rest

/-- Apply `DATE_RE` to one element's normalized text, normalizing the
matched text as the source does. -/
def dateOfText (t : String) : Option String :=
  (dateSearch (normalize_spaces t).data).map
    (fun m => normalize_spaces ⟨m⟩)

/-- The tier-2 loop: `cur = probe; for _ in range(8): ... cur = cur.find_next()`,
i.e. the pattern applied at indices `i, i+1, ...` while fuel lasts. -/
def dateWindow (elems : List PElem) : Nat → Nat → Option String
  | _, 0 => none
  | i, fuel + 1 =>
    match elems.get? i with
    | none => none
    | some e =>
      match dateOfText e.text with
      | some m => some m
      | none => dateWindow elems (i + 1) fuel

/-- The probe of tier 2: first `h1`/`h2` whose text contains the title
(case-insensitive), else the first `h1`/`h2`. -/
def probeIdx (p : Page) (title_text : String) : Option Nat :=
  match p.elems.findIdx? (fun x =>
      (x.name = "h1" ∨ x.name = "h2") ∧
        strIn (pyLower title_text) (pyLower x.text) = true) with
  | some i => some i
  | none => p.elems.findIdx? (fun x => x.name = "h1" ∨ x.name = "h2")

/-- `extract_date_text` (lines 219-241). -/
def extract_date_text (p : Page) (title_text : String) : String :=
  let tier1 : Option String :=
    match p.elems.find? (fun e => e.name = "time") with
    | some t => if t.text ≠ "" then some (normalize_spaces t.text) else none
    | none => none
  match tier1 with
  | some s => s
  | none =>
    let win : Option String :=
      match probeIdx p title_text with
      | none => none
      | some i => dateWindow p.elems i 8
    match win with
    | some s => s
    | none =>
      match dateOfText (pageText p) with
      | some m => m
      | none => ""

/-! ## `extract_content_html` (lines 252-275) -/

def stop_words : List String :=
  ["related posts", "recent posts", "categories", "tags", "contact us"]

def allowed : List String :=
  ["p", "ul", "ol", "li", "h3", "h4", "h5", "blockquote", "figure", "img",
   "table", "thead", "tbody", "tr", "th", "td", "em", "strong", "a", "span"]

/-- Does the sibling's lower-cased stripped text, truncated to 40
characters, contain a stop phrase? -/
def stopHit (sib : Block) : Bool :=
  stop_words.any (fun w => strIn w ⟨(pyLower sib.text).data.take 40⟩)

/-- Is the sibling kept: its own tag allowed, or some descendant's? -/
def keepSib (sib : Block) : Bool :=
  allowed.contains sib.name ||
    sib.descendantNames.any (fun n => allowed.contains n)

/-- The sibling walk of `extract_content_html`: skip non-`Tag` siblings,
terminate before the first stop-phrase sibling, collect `str(sib)` of the
kept ones. -/
def content_walk : List Block → List String
  | [] => []
  | sib :: rest =>
    if sib.isTag = false then content_walk rest
    else if stopHit sib then []
    else if keepSib sib then sib.html :: content_walk rest
    else content_walk rest

/-- The title-element lookup shared by the walk (lines 256-262): first
`h1`/`h2` containing the title case-insensitively, else the first
`h1`/`h2`. -/
def titleElOf (p : Page) (title_text : String) : Option PElem :=
  match p.elems.find? (fun t =>
      (t.name = "h1" ∨ t.name = "h2") ∧
        strIn (pyLower title_text) (pyLower t.text) = true) with
  | some t => some t
  | none => p.elems.find? (fun t => t.name = "h1" ∨ t.name = "h2")

def joinAll : List String → List Char
  | [] => []
  | s :: rest => s.data ++ joinAll rest

def pyStrip (s : String) : String := ⟨pyStripChars s.data⟩

/-- `extract_content_html` (lines 252-275): `"".join(parts).strip()`. -/
def extract_content_html (p : Page) (title_text : String) : String :=
  match titleElOf p title_text with
  | none => ""
  | some el => pyStrip ⟨joinAll (content_walk el.siblings)⟩

/-! ## `absolutize_links` (lines 243-250) and
`first_image_url_from_html` (lines 277-281)

`absolutize_links` re-parses the fragment and rewrites every `href` and
`src` attribute through `norm_url`.  The model rewrites the attribute
values in the serialized fragment in place (BeautifulSoup's re-serialized
markup differs in irrelevant ways — e.g. lxml's `<html><body>` wrapper —
which no claim observes); a `ValueError` raised by `norm_url` propagates
(`none`). -/

def rewriteAttrsF : Nat → List Char → Option (List Char)
  | 0, _ => some []
  | _ + 1, [] => some []
  | fuel + 1, c :: rest =>
    if "href=\"".data.isPrefixOf (c :: rest) then
      let after := (c :: rest).drop 6
      let val := after.takeWhile (fun x => x ≠ '"')
      let rest2 := after.drop val.length
      (norm_url ⟨val⟩).bind fun nv =>
      (rewriteAttrsF fuel rest2).map fun tail =>
        "href=\"".data ++ nv.data ++ tail
    else if "src=\"".data.isPrefixOf (c :: rest) then
      let after := (c :: rest).drop 5
      let val := after.takeWhile (fun x => x ≠ '"')
      let rest2 := after.drop val.length
      (norm_url ⟨val⟩).bind fun nv =>
      (rewriteAttrsF fuel rest2).map fun tail =>
        "src=\"".data ++ nv.data ++ tail
    else
      (rewriteAttrsF fuel rest).map fun tail => c :: tail

def absolutize_links (fragment : String) : Option String :=
  if fragment = "" then some fragment
  else (rewriteAttrsF fragment.data.length fragment.data).map
    (fun l => (⟨l⟩ : String))

/-- Remainder after the first occurrence of `pat`. -/
def findSub (pat : List Char) : List Char → Option (List Char)
  | [] => if pat.isEmpty then some [] else none
  | c :: rest =>
    if pat.isPrefixOf (c :: rest) then some ((c :: rest).drop pat.length)
    else findSub pat rest

/-- `first_image_url_from_html` (lines 277-281): the first `<img>` of the
fragment (its `src` attribute, if any), else the page's first `<img>`;
empty `src` maps to `""`, otherwise through `norm_url`. -/
def first_image_url_from_html (html : String) (page : Page) :
    Option String :=
  let bodyImg : Option (Option String) :=
    match findSub "<img".data html.data with
    | some afterImg =>
      let tag := afterImg.takeWhile (fun x => x ≠ '>')
      match findSub "src=\"".data tag with
      | some afterSrc =>
        some (some ⟨afterSrc.takeWhile (fun x => x ≠ '"')⟩)
      | none => some none
    | none => none
  let imgAttr : Option (Option String) :=
    match bodyImg with
    | some a => some a
    | none => page.imgs.head?
  let src : String :=
    match imgAttr with
    | some (some s) => s
    | some none => ""
    | none => ""
  if src = "" then some "" else norm_url src

/-! ## `parse_post` (lines 283-310) -/

structure ParsedPost where
  title : String
  date : String
  category : String
  tags : List String
  content_html : String
  featured : String
  skip : Bool
deriving DecidableEq

/-- `url.rsplit("/", 1)[-1]`. -/
def lastSegAfterSlash (s : String) : String :=
  ⟨(s.data.reverse.takeWhile (fun c => c ≠ '/')).reverse⟩

/-- `.replace("-", " ")`. -/
def dashesToSpaces (s : String) : String :=
  ⟨s.data.map (fun c => if c = '-' then ' ' else c)⟩

/-- `parse_post` after the fetch (lines 285-310), over the fetched page.
`none` models an exception escaping (a `ValueError` from `norm_url`
inside `absolutize_links` / the image lookup), which `main`'s
`try/except` catches. -/
def parse_post_page (page : Page) (url : String) (expected_title : String) :
    Option ParsedPost :=
  let h := page.elems.find? (fun t => t.name = "h1" ∨ t.name = "h2")
  let title :=
    if expected_title ≠ "" then expected_title
    else
      match h with
      | some e => e.text
      | none => dashesToSpaces (lastSegAfterSlash url)
  (absolutize_links (extract_content_html page title)).bind fun body_html =>
  let tags := extract_tags page
  let category :=
    if extract_category page = "" then "USDA Supply/Demand"
    else extract_category page
  let date_txt := extract_date_text page title
  let post_date := to_iso_date date_txt
  (first_image_url_from_html body_html page).map fun featured =>
  { title := title, date := post_date, category := category, tags := tags,
    content_html := body_html, featured := featured,
    skip := body_html == "" && date_txt == "" }

/-- `parse_post` including the fetch (line 284): `fetch` returning `none`
models `get_html` raising. -/
def parse_post (fetch : String → Option Page) (url expected_title : String) :
    Option ParsedPost :=
  (fetch url).bind fun pg => parse_post_page pg url expected_title

/-! ## `slugify` (lines 79-82), the output row and `main` (lines 312-397) -/

def slugChar (c : Char) : Bool :=
  ('a' ≤ c && c ≤ 'z') || ('0' ≤ c && c ≤ '9') || c = '-'

def replaceAmp : List Char → List Char
  | [] => []
  | c :: rest =>
    if c = '&' then 'a' :: 'n' :: 'd' :: replaceAmp rest
    else c :: replaceAmp rest

/-- `re.sub(r"[^a-z0-9-]+", "-", s)`: each maximal run of characters
outside the class becomes one hyphen. -/
def collapseNonSlug : Bool → List Char → List Char
  | _, [] => []
  | inRun, c :: rest =>
    if slugChar c then c :: collapseNonSlug false rest
    else if inRun then collapseNonSlug true rest
    else '-' :: collapseNonSlug true rest

def stripDashes (l : List Char) : List Char :=
  ((l.dropWhile (fun c => c = '-')).reverse.dropWhile
    (fun c => c = '-')).reverse

def slugify (t : String) : String :=
  ⟨stripDashes (collapseNonSlug false (replaceAmp (pyLower t).data))⟩

def joinPipe : List String → String
  | [] => ""
  | [s] => s
  | s :: rest => s ++ "|" ++ joinPipe rest

/-- One output row (lines 365-390), fields in source order. -/
structure Row where
  source_url : String
  post_title : String
  post_slug : String
  post_status : String
  post_author : String
  post_date : String
  categories : String
  tags : String
  excerpt : String
  content_html : String
  featured_image_url : String
  featured_image_alt : String
  image_gallery_urls : String
  canonical_url : String
  seo_title : String
  seo_meta_description : String
  redirect_from : String
  menu_order : String
  comment_status : String
  ping_status : String
  meta__source : String
  meta__external_id : String
  meta__custom1 : String
  meta__custom2 : String
deriving DecidableEq

def mkRow (url : String) (d : ParsedPost) : Row :=
  { source_url := url, post_title := d.title, post_slug := slugify d.title,
    post_status := "draft", post_author := "admin", post_date := d.date,
    categories := d.category, tags := joinPipe d.tags, excerpt := "",
    content_html := d.content_html, featured_image_url := d.featured,
    featured_image_alt := "", image_gallery_urls := "", canonical_url := "",
    seo_title := "", seo_meta_description := "", redirect_from := "",
    menu_order := "0", comment_status := "closed", ping_status := "closed",
    meta__source := "Roach Ag Resources", meta__external_id := "",
    meta__custom1 := "", meta__custom2 := "" }

structure MState where
  seen_urls : List String
  rows : List Row
deriving DecidableEq

/-- The body of the inner loop of `main` (lines 345-391) for one
candidate `(url, title)`: skip if seen; fetch and parse (any raise skips
the post); skip silently when `data["skip"]`; otherwise record the URL
as seen and append one row. -/
def step (fetch : String → Option Page) (st : MState)
    (c : String × String) : MState :=
  if c.1 ∈ st.seen_urls then st
  else
    match parse_post fetch c.1 c.2 with
    | none => st
    | some d =>
      if d.skip then st
      else
        { seen_urls := c.1 :: st.seen_urls,
          rows := st.rows ++ [mkRow c.1 d] }

/-- The loop of `main` over listing pages, each page already reduced to
its `parse_listing` candidates (a listing page whose fetch fails
contributes nothing and is simply absent). -/
def runPages (fetch : String → Option Page) (st : MState)
    (pages : List (List (String × String))) : MState :=
  pages.foldl (fun s pg => pg.foldl (step fetch) s) st

def main_run (fetch : String → Option Page)
    (pages : List (List (String × String))) : MState :=
  runPages fetch ⟨[], []⟩ pages

/-! ## Theorems for the content boundary (C4) -/

/-- The siblings strictly before the first `Tag` sibling whose truncated
lower-cased text contains a stop phrase. -/
def truncAtStop (sibs : List Block) : List Block :=
  sibs.takeWhile (fun s => !(s.isTag && stopHit s))

theorem content_walk_trunc :
    ∀ sibs : List Block, content_walk sibs = content_walk (truncAtStop sibs) := by
  intro sibs
  induction sibs with
  | nil => rfl
  | cons sib rest ih =>
    unfold truncAtStop at ih ⊢
    cases htag : sib.isTag with
    | false =>
      rw [List.takeWhile_cons_of_pos (by simp [htag])]
      show content_walk (sib :: rest) = content_walk (sib :: _)
      unfold content_walk
      rw [htag]
      simpa using ih
    | true =>
      cases hstop : stopHit sib with
      | true =>
        rw [List.takeWhile_cons_of_neg (by simp [htag, hstop])]
        unfold content_walk
        rw [htag, hstop]
        rfl
      | false =>
        rw [List.takeWhile_cons_of_pos (by simp [htag, hstop])]
        show content_walk (sib :: rest) = content_walk (sib :: _)
        unfold content_walk
        rw [htag, hstop]
        cases hkeep : keepSib sib <;> simpa [hkeep] using ih

/-- C4: the fragment returned by `extract_content_html` is built solely
from the siblings strictly before the first sibling whose lower-cased
text (truncated to 40 characters) contains a stop phrase — that sibling
and everything after it never contribute; in particular for sibling
blocks `[p, p, h4("Related Posts"), p]` after the title, the fragment is
exactly the first two paragraphs. -/
theorem c4_content_boundary :
    (∀ sibs : List Block,
      content_walk sibs = content_walk (truncAtStop sibs)) ∧
    (∀ (p : Page) (t : String) (el : PElem), titleElOf p t = some el →
      extract_content_html p t =
        pyStrip ⟨joinAll (content_walk (truncAtStop el.siblings))⟩) ∧
    extract_content_html
      ⟨[⟨"h2", "USDA Market Update",
         [⟨true, "p", "First para", [], [], "<p>First para</p>"⟩,
          ⟨true, "p", "Second para", [], [], "<p>Second para</p>"⟩,
          ⟨true, "h4", "Related Posts", [], [], "<h4>Related Posts</h4>"⟩,
          ⟨true, "p", "Trailing junk", [], [], "<p>Trailing junk</p>"⟩]⟩],
        [], []⟩
      "USDA Market Update" = "<p>First para</p><p>Second para</p>" := by
  refine ⟨content_walk_trunc, ?_, by decide⟩
  intro p t el hel
  unfold extract_content_html
  rw [hel, ← content_walk_trunc]

/-- Witness: the C4 theorem applied at a concrete page. -/
theorem c4_content_boundary_witness :
    titleElOf
        ⟨[⟨"h2", "Post heading here",
           [⟨true, "p", "Body text", [], [], "<p>Body text</p>"⟩,
            ⟨true, "h4", "Recent Posts", [], [], "<h4>Recent Posts</h4>"⟩]⟩],
          [], []⟩ "Post heading here" =
      some ⟨"h2", "Post heading here",
        [⟨true, "p", "Body text", [], [], "<p>Body text</p>"⟩,
         ⟨true, "h4", "Recent Posts", [], [], "<h4>Recent Posts</h4>"⟩]⟩ ∧
    extract_content_html
        ⟨[⟨"h2", "Post heading here",
           [⟨true, "p", "Body text", [], [], "<p>Body text</p>"⟩,
            ⟨true, "h4", "Recent Posts", [], [], "<h4>Recent Posts</h4>"⟩]⟩],
          [], []⟩ "Post heading here" =
      pyStrip ⟨joinAll (content_walk (truncAtStop
        (PElem.mk "h2" "Post heading here"
          [⟨true, "p", "Body text", [], [], "<p>Body text</p>"⟩,
           ⟨true, "h4", "Recent Posts", [], [],
             "<h4>Recent Posts</h4>"⟩]).siblings))⟩ := by
  refine ⟨by decide, ?_⟩
  refine c4_content_boundary.2.1 _ _ _ ?_
  decide

/-! ## Theorems for tag extraction (C8) -/

theorem dedupGo_nodup (l : List String) :
    ∀ seen, (dedupGo seen l).Nodup ∧ ∀ t ∈ dedupGo seen l, t ∉ seen := by
  induction l with
  | nil => intro seen; exact ⟨List.nodup_nil, by simp [dedupGo]⟩
  | cons t rest ih =>
    intro seen
    unfold dedupGo
    cases hm : seen.contains t with
    | true => simpa using ih seen
    | false =>
      have hnm : t ∉ seen := by simpa using hm
      obtain ⟨ihn, ihm⟩ := ih (t :: seen)
      rw [if_neg (by simp)]
      refine ⟨?_, ?_⟩
      · simp only [List.nodup_cons]
        refine ⟨?_, ihn⟩
        intro hmem
        exact (ihm t hmem) (by simp)
      · intro x hx
        simp only [List.mem_cons] at hx
        rcases hx with hx | hx
        · subst hx; exact hnm
        · intro hxs
          exact (ihm x hx) (by simp [hxs])

/-- C8: with a level-3-5 heading whose exact case-insensitive text is
"tags", the result is the link texts of the first following `Tag`
sibling with empties dropped and duplicates removed keeping the first
occurrence (and therefore duplicate-free); with no such heading the
result is the empty list, not an error; links
`["WASDE", "Corn", "WASDE"]` yield `["WASDE", "Corn"]`. -/
theorem c8_extract_tags :
    (∀ (p : Page) (h : PElem) (cont : Block),
      tagsHeadingOf p = some h →
      h.siblings.find? (fun s => s.isTag) = some cont →
      extract_tags p =
        dedupKeepFirst (cont.linkTexts.filter (fun t => t ≠ ""))) ∧
    (∀ p : Page, tagsHeadingOf p = none → extract_tags p = []) ∧
    (∀ p : Page, (extract_tags p).Nodup) ∧
    extract_tags
      ⟨[⟨"h4", "Tags",
         [⟨true, "div", "", [], ["WASDE", "Corn", "WASDE"], ""⟩]⟩],
        [], []⟩ = ["WASDE", "Corn"] := by
  refine ⟨?_, ?_, ?_, by decide⟩
  · intro p h cont hh hc
    unfold extract_tags
    rw [hh]
    dsimp only
    rw [hc]
  · intro p hp
    unfold extract_tags
    rw [hp]
  · intro p
    unfold extract_tags
    cases hh : tagsHeadingOf p with
    | none => simp
    | some h =>
      dsimp only
      cases hc : h.siblings.find? (fun s => s.isTag) with
      | none => simp
      | some cont =>
        dsimp only
        exact (dedupGo_nodup _ []).1

/-- Witness: the C8 theorem applied at concrete pages. -/
theorem c8_extract_tags_witness :
    tagsHeadingOf
        ⟨[⟨"h4", "Tags",
           [⟨true, "div", "", [], ["WASDE", "Corn", "WASDE"], ""⟩]⟩],
          [], []⟩ =
      some ⟨"h4", "Tags",
        [⟨true, "div", "", [], ["WASDE", "Corn", "WASDE"], ""⟩]⟩ ∧
    extract_tags
        ⟨[⟨"h4", "Tags",
           [⟨true, "div", "", [], ["WASDE", "Corn", "WASDE"], ""⟩]⟩],
          [], []⟩ =
      dedupKeepFirst
        ((Block.mk true "div" "" [] ["WASDE", "Corn", "WASDE"]
            "").linkTexts.filter (fun t => t ≠ "")) ∧
    extract_tags ⟨[], [], []⟩ = [] := by
  refine ⟨by decide, ?_, ?_⟩
  · refine c8_extract_tags.1 _
      (PElem.mk "h4" "Tags"
        [⟨true, "div", "", [], ["WASDE", "Corn", "WASDE"], ""⟩]) _
      ?_ ?_ <;> decide
  · refine c8_extract_tags.2.1 _ ?_
    decide

/-! ## Theorems for date extraction (C6) -/

/-- The claim's description of `extract_date_text`, following its words:
tier 1 is a non-empty `time` element; the tier-2 window applies the
date pattern to up to 8 elements AFTER the title heading; tier 3 scans
the whole page text; otherwise the empty string. -/
def dateTextClaimC6 (p : Page) (title_text : String) : String :=
  let tier1 : Option String :=
    match p.elems.find? (fun e => e.name = "time") with
    | some t => if t.text ≠ "" then some (normalize_spaces t.text) else none
    | none => none
  match tier1 with
  | some s => s
  | none =>
    let win : Option String :=
      match probeIdx p title_text with
      | none => none
      | some i =>
        ((p.elems.drop (i + 1)).take 8).findSome? (fun e => dateOfText e.text)
    match win with
    | some s => s
    | none =>
      match dateOfText (pageText p) with
      | some m => m
      | none => ""

/-- The amended description: the tier-2 window comprises the title
heading itself and up to 7 subsequent elements (8 elements starting at
the heading). -/
def dateTextAmendedC6 (p : Page) (title_text : String) : String :=
  let tier1 : Option String :=
    match p.elems.find? (fun e => e.name = "time") with
    | some t => if t.text ≠ "" then some (normalize_spaces t.text) else none
    | none => none
  match tier1 with
  | some s => s
  | none =>
    let win : Option String :=
      match probeIdx p title_text with
      | none => none
      | some i =>
        ((p.elems.drop i).take 8).findSome? (fun e => dateOfText e.text)
    match win with
    | some s => s
    | none =>
      match dateOfText (pageText p) with
      | some m => m
      | none => ""

theorem dateWindow_eq_take (elems : List PElem) :
    ∀ (fuel i : Nat),
      dateWindow elems i fuel =
        ((elems.drop i).take fuel).findSome? (fun e => dateOfText e.text) := by
  intro fuel
  induction fuel with
  | zero =>
    intro i
    simp [dateWindow]
  | succ fuel ih =>
    intro i
    cases hg : elems.get? i with
    | none =>
      have hlen : elems.length ≤ i := by
        by_contra hlt
        push_neg at hlt
        rw [List.get?_eq_get hlt] at hg
        cases hg
      have hdrop : elems.drop i = [] := List.drop_eq_nil_of_le hlen
      unfold dateWindow
      rw [hg, hdrop]
      rfl
    | some e =>
      have hlt : i < elems.length := by
        by_contra hge
        push_neg at hge
        rw [List.get?_eq_none.mpr hge] at hg
        cases hg
      have hdrop : elems.drop i = e :: elems.drop (i + 1) := by
        rw [List.drop_eq_getElem_cons hlt]
        congr 1
        have := List.get?_eq_getElem? elems i
        rw [this, List.getElem?_eq_getElem hlt] at hg
        exact Option.some.inj hg
      unfold dateWindow
      rw [hg, hdrop]
      show (match dateOfText e.text with
            | some m => some m
            | none => dateWindow elems (i + 1) fuel) = _
      rw [List.take_succ_cons]
      rw [List.findSome?_cons]
      cases hd : dateOfText e.text with
      | none => simpa using ih (i + 1)
      | some m => rfl

/-- C6 counterexample: a post page with a date before the title and a
date at the 8th element after the title heading.  The code's window is
the heading plus 7 subsequent elements, so it misses the later date and
tier 3 (the whole-page scan) returns the earlier one; under the claim's
window of 8 elements after the heading, tier 2 would return the later
date.  The two disagree, refuting the claim's description. -/
theorem c6_counterexample_window_off_by_one :
    extract_date_text
        ⟨[⟨"p", "posted January 1, 2020", []⟩,
          ⟨"h2", "My Great Title", []⟩,
          ⟨"p", "filler one", []⟩, ⟨"p", "filler two", []⟩,
          ⟨"p", "filler three", []⟩, ⟨"p", "filler four", []⟩,
          ⟨"p", "filler five", []⟩, ⟨"p", "filler six", []⟩,
          ⟨"p", "filler seven", []⟩,
          ⟨"p", "February 2, 2021", []⟩], [], []⟩
      "My Great Title" = "January 1, 2020" ∧
    dateTextClaimC6
        ⟨[⟨"p", "posted January 1, 2020", []⟩,
          ⟨"h2", "My Great Title", []⟩,
          ⟨"p", "filler one", []⟩, ⟨"p", "filler two", []⟩,
          ⟨"p", "filler three", []⟩, ⟨"p", "filler four", []⟩,
          ⟨"p", "filler five", []⟩, ⟨"p", "filler six", []⟩,
          ⟨"p", "filler seven", []⟩,
          ⟨"p", "February 2, 2021", []⟩], [], []⟩
      "My Great Title" = "February 2, 2021" := by
  refine ⟨by decide, by decide⟩

/-- C6 (amended): when no non-empty `time` element exists, the tier-2
window search starts at the first heading whose text contains the title
(case-insensitive substring, falling back to the first `h1`/`h2`) and
applies the date-pattern match to that heading and up to 7 subsequent
elements in document order (8 elements starting at the heading),
returning the first match; if no tier matches, `extract_date_text`
returns the empty string without raising: the source function equals the
amended description on every page and title, and returns `""` on a page
with no date signal at all. -/
theorem c6_extract_date_text_amended :
    (∀ (p : Page) (t : String),
      extract_date_text p t = dateTextAmendedC6 p t) ∧
    extract_date_text ⟨[⟨"p", "no date here", []⟩], [], []⟩ "x" = "" := by
  refine ⟨?_, by decide⟩
  intro p t
  unfold extract_date_text dateTextAmendedC6
  dsimp only
  cases hf : p.elems.find? (fun e => e.name = "time") with
  | some tm =>
    by_cases htm : tm.text = ""
    · simp [htm, dateWindow_eq_take]
    · simp [htm, dateWindow_eq_take]
  | none => simp [dateWindow_eq_take]

/-! ## Theorems for the skip policy (C1) -/

theorem rewriteAttrsF_ne_nil {fuel : Nat} {c : Char} {rest r : List Char}
    (h : rewriteAttrsF (fuel + 1) (c :: rest) = some r) : r ≠ [] := by
  unfold rewriteAttrsF at h
  split at h
  · rcases Option.bind_eq_some.mp h with ⟨nv, _, h2⟩
    rcases Option.map_eq_some'.mp h2 with ⟨tail, _, h3⟩
    subst h3
    simp
  · split at h
    · rcases Option.bind_eq_some.mp h with ⟨nv, _, h2⟩
      rcases Option.map_eq_some'.mp h2 with ⟨tail, _, h3⟩
      subst h3
      simp
    · rcases Option.map_eq_some'.mp h with ⟨tail, _, h3⟩
      subst h3
      simp

/-- `absolutize_links` maps `""` to `""` and nothing else to `""`:
rewriting attributes never empties a non-empty fragment. -/
theorem absolutize_empty_iff {s r : String}
    (h : absolutize_links s = some r) : r = "" ↔ s = "" := by
  unfold absolutize_links at h
  by_cases hs : s = ""
  · rw [if_pos hs] at h
    have : r = s := by
      have h2 : s = r := by simpa using h
      exact h2.symm
    simp [this, hs]
  · rw [if_neg hs] at h
    rcases Option.map_eq_some'.mp h with ⟨l, hl, hr⟩
    subst hr
    have hsd : s.data ≠ [] := by
      intro hd
      exact hs (show s = "" from by
        cases s with
        | mk d =>
          simp only at hd
          exact congrArg String.mk hd)
    obtain ⟨c, rest, hcr⟩ : ∃ c rest, s.data = c :: rest := by
      cases hd : s.data with
      | nil => exact absurd hd hsd
      | cons a as => exact ⟨a, as, rfl⟩
    rw [hcr] at hl
    simp only [List.length_cons] at hl
    have hne := rewriteAttrsF_ne_nil hl
    constructor
    · intro hmk
      have : l = [] := by
        have := congrArg String.data hmk
        simpa using this
      exact absurd this hne
    · intro hs2
      exact absurd hs2 hs

/-- C1: an assembled `ParsedPost` has `skip = true` exactly when both the
extracted content HTML and the extracted raw date text are empty; and a
skipped post leaves `main`'s state untouched — no output record is
produced for that URL. -/
theorem c1_skip_policy :
    (∀ (page : Page) (url etitle : String) (pp : ParsedPost),
      parse_post_page page url etitle = some pp →
      (pp.skip = true ↔
        extract_content_html page pp.title = "" ∧
        extract_date_text page pp.title = "")) ∧
    (∀ (fetch : String → Option Page) (st : MState) (c : String × String)
      (d : ParsedPost),
      parse_post fetch c.1 c.2 = some d → d.skip = true →
      step fetch st c = st) := by
  constructor
  · intro page url etitle pp h
    unfold parse_post_page at h
    dsimp only at h
    rcases Option.bind_eq_some.mp h with ⟨body, hb, h2⟩
    rcases Option.map_eq_some'.mp h2 with ⟨feat, _, hpp⟩
    subst hpp
    dsimp only
    rw [Bool.and_eq_true, beq_iff_eq, beq_iff_eq]
    rw [absolutize_empty_iff hb]
  · intro fetch st c d hparse hskip
    unfold step
    by_cases hm : c.1 ∈ st.seen_urls
    · rw [if_pos hm]
    · rw [if_neg hm, hparse]
      dsimp only
      rw [if_pos hskip]

/-- Witness: the C1 theorem applied at a concrete empty-bodied page. -/
theorem c1_skip_policy_witness :
    parse_post_page ⟨[], [], []⟩
        "https://roachag.com/Resources/some-post" "" =
      some ⟨"some post", "", "USDA Supply/Demand", [], "", "", true⟩ ∧
    ((⟨"some post", "", "USDA Supply/Demand", [], "", "", true⟩ :
        ParsedPost).skip = true ↔
      extract_content_html ⟨[], [], []⟩
          (ParsedPost.mk "some post" "" "USDA Supply/Demand" [] "" ""
            true).title = "" ∧
      extract_date_text ⟨[], [], []⟩
          (ParsedPost.mk "some post" "" "USDA Supply/Demand" [] "" ""
            true).title = "") ∧
    parse_post (fun _ => some ⟨[], [], []⟩)
        "https://roachag.com/Resources/some-post" "" =
      some ⟨"some post", "", "USDA Supply/Demand", [], "", "", true⟩ ∧
    step (fun _ => some ⟨[], [], []⟩) ⟨[], []⟩
        ("https://roachag.com/Resources/some-post", "") = ⟨[], []⟩ := by
  refine ⟨by decide, ?_, by decide, ?_⟩
  · refine c1_skip_policy.1 ⟨[], [], []⟩
      "https://roachag.com/Resources/some-post" "" _ ?_
    decide
  · refine c1_skip_policy.2 (fun _ => some ⟨[], [], []⟩) ⟨[], []⟩
      ("https://roachag.com/Resources/some-post", "")
      ⟨"some post", "", "USDA Supply/Demand", [], "", "", true⟩ ?_ ?_
    · decide
    · decide

/-! ## Theorems for deduplication (C2) -/

/-- The invariant of `main`'s loop: every recorded row's URL is in the
seen set, and the recorded URLs are pairwise distinct. -/
def RowInv (st : MState) : Prop :=
  (∀ r ∈ st.rows, r.source_url ∈ st.seen_urls) ∧
  (st.rows.map (fun r => r.source_url)).Nodup

theorem step_inv (fetch : String → Option Page) (st : MState)
    (c : String × String) (hinv : RowInv st) : RowInv (step fetch st c) := by
  unfold step
  by_cases hm : c.1 ∈ st.seen_urls
  · rw [if_pos hm]; exact hinv
  · rw [if_neg hm]
    cases hp : parse_post fetch c.1 c.2 with
    | none => exact hinv
    | some d =>
      dsimp only
      cases hd : d.skip with
      | true => simpa using hinv
      | false =>
        simp only [Bool.false_eq_true, if_false]
        obtain ⟨h1, h2⟩ := hinv
        constructor
        · intro r hr
          simp only [List.mem_append, List.mem_singleton] at hr
          rcases hr with hr | hr
          · exact List.mem_cons_of_mem _ (h1 r hr)
          · subst hr
            exact List.mem_cons_self _ _
        · rw [List.map_append, List.nodup_append]
          refine ⟨h2, by simp, ?_⟩
          intro x hx
          simp only [List.map_cons, List.map_nil, List.mem_singleton]
          intro hx2
          rw [List.mem_map] at hx
          obtain ⟨r, hr, hru⟩ := hx
          simp only [mkRow] at hx2
          rw [hx2] at hru
          exact hm (hru ▸ h1 r hr)

theorem foldl_step_inv (fetch : String → Option Page)
    (cands : List (String × String)) :
    ∀ st : MState, RowInv st → RowInv (cands.foldl (step fetch) st) := by
  induction cands with
  | nil => intro st h; exact h
  | cons c rest ih =>
    intro st h
    exact ih _ (step_inv fetch st c h)

theorem runPages_inv (fetch : String → Option Page)
    (pages : List (List (String × String))) :
    ∀ st : MState, RowInv st → RowInv (runPages fetch st pages) := by
  induction pages with
  | nil => intro st h; exact h
  | cons pg rest ih =>
    intro st h
    exact ih _ (foldl_step_inv fetch pg st h)

/-- C2: the output of one run holds at most one record per URL.
A candidate whose URL is already in the seen set is dropped without
fetching (the step neither changes the state nor consults the fetcher);
the URL is added to the set exactly on successful non-skipped assembly
(with the row appended at the end, preserving first-seen order); the
recorded URLs of a whole run are pairwise distinct; and the same URL on
two different listing pages yields exactly the one record of the first
encounter. -/
theorem c2_deduplication :
    (∀ (f g : String → Option Page) (st : MState) (c : String × String),
      c.1 ∈ st.seen_urls → step f st c = st ∧ step f st c = step g st c) ∧
    (∀ (f : String → Option Page) (st : MState) (c : String × String)
      (d : ParsedPost),
      c.1 ∉ st.seen_urls → parse_post f c.1 c.2 = some d →
      d.skip = false →
      (step f st c).seen_urls = c.1 :: st.seen_urls ∧
      (step f st c).rows = st.rows ++ [mkRow c.1 d]) ∧
    (∀ (f : String → Option Page) (st : MState) (c : String × String),
      (step f st c).seen_urls ≠ st.seen_urls →
      c.1 ∉ st.seen_urls ∧
      ∃ d, parse_post f c.1 c.2 = some d ∧ d.skip = false) ∧
    (∀ (f : String → Option Page) (pages : List (List (String × String))),
      ((main_run f pages).rows.map (fun r => r.source_url)).Nodup) ∧
    (∀ (f : String → Option Page) (u t1 t2 : String) (d : ParsedPost),
      parse_post f u t1 = some d → d.skip = false →
      (main_run f [[(u, t1)], [(u, t2)]]).rows = [mkRow u d]) := by
  refine ⟨?_, ?_, ?_, ?_, ?_⟩
  · intro f g st c hm
    unfold step
    rw [if_pos hm, if_pos hm]
    exact ⟨rfl, rfl⟩
  · intro f st c d hm hp hskip
    unfold step
    rw [if_neg hm, hp]
    dsimp only
    rw [hskip]
    exact ⟨rfl, rfl⟩
  · intro f st c hne
    unfold step at hne
    by_cases hm : c.1 ∈ st.seen_urls
    · rw [if_pos hm] at hne
      exact absurd rfl hne
    · rw [if_neg hm] at hne
      refine ⟨hm, ?_⟩
      cases hp : parse_post f c.1 c.2 with
      | none => rw [hp] at hne; exact absurd rfl hne
      | some d =>
        rw [hp] at hne
        dsimp only at hne
        cases hd : d.skip with
        | true => rw [hd] at hne; simp at hne
        | false => exact ⟨d, rfl, hd⟩
  · intro f pages
    exact (runPages_inv f pages ⟨[], []⟩ ⟨by simp, by simp⟩).2
  · intro f u t1 t2 d hp hskip
    unfold main_run runPages
    simp only [List.foldl]
    have h1 : step f ⟨[], []⟩ (u, t1) =
        ⟨[u], [mkRow u d]⟩ := by
      unfold step
      rw [if_neg (by simp)]
      dsimp only
      rw [hp]
      dsimp only
      rw [hskip]
      rfl
    rw [h1]
    have h2 : step f ⟨[u], [mkRow u d]⟩ (u, t2) = ⟨[u], [mkRow u d]⟩ := by
      unfold step
      rw [if_pos (by simp)]
    rw [h2]

/-- Witness: the C2 theorem applied at concrete states and pages. -/
theorem c2_deduplication_witness :
    (("https://roachag.com/Resources/a", "Alpha").1 ∈
      (MState.mk ["https://roachag.com/Resources/a"] []).seen_urls ∧
     step (fun _ => none) ⟨["https://roachag.com/Resources/a"], []⟩
        ("https://roachag.com/Resources/a", "Alpha") =
      ⟨["https://roachag.com/Resources/a"], []⟩) ∧
    (main_run
        (fun _ => some ⟨[⟨"time", "September 12, 2025", []⟩], [], []⟩)
        [[("https://roachag.com/Resources/a", "Alpha Report")],
         [("https://roachag.com/Resources/a", "Alpha Again")]]).rows =
      [mkRow "https://roachag.com/Resources/a"
        ⟨"Alpha Report", "2025-09-12 10:00", "USDA Supply/Demand", [], "",
          "", false⟩] := by
  constructor
  · constructor
    · decide
    · exact (c2_deduplication.1 (fun _ => none) (fun _ => none)
        ⟨["https://roachag.com/Resources/a"], []⟩
        ("https://roachag.com/Resources/a", "Alpha") (by decide)).1
  · refine c2_deduplication.2.2.2.2
      (fun _ => some ⟨[⟨"time", "September 12, 2025", []⟩], [], []⟩)
      "https://roachag.com/Resources/a" "Alpha Report" "Alpha Again"
      ⟨"Alpha Report", "2025-09-12 10:00", "USDA Supply/Demand", [], "",
        "", false⟩ ?_ ?_
    · decide
    · decide

theorem pathParts_ne_empty (path : String) :
    ∀ p ∈ pathParts path, p ≠ "" := by
  intro p hp
  have := List.of_mem_filter hp
  simpa using this

/-- C7: `is_clean_post_path` accepts a path exactly when its first segment
equals the posts-section name "Resources" and a second segment is present,
non-empty, and not in the fixed denylist; in particular
`/Resources/USDA-Update-2025` is accepted while `/Resources/Calendar`,
`/Resources/` and `/About` are rejected. -/
theorem c7_is_clean_post_path_characterization :
    (∀ path : String,
      is_clean_post_path path = true ↔
        ∃ second rest, pathParts path = "Resources" :: second :: rest ∧
          second ≠ "" ∧ second ∉ BAD_SLUGS) ∧
    is_clean_post_path "/Resources/USDA-Update-2025" = true ∧
    is_clean_post_path "/Resources/Calendar" = false ∧
    is_clean_post_path "/Resources/" = false ∧
    is_clean_post_path "/About" = false := by
  refine ⟨?_, by decide, by decide, by decide, by decide⟩
  intro path
  unfold is_clean_post_path
  constructor
  · intro h
    cases hp : pathParts path with
    | nil => simp [hp] at h
    | cons first rest =>
      cases rest with
      | nil => simp [hp] at h
      | cons second rest2 =>
        simp only [hp] at h
        by_cases hf : first = "Resources"
        · subst hf
          simp at h
          exact ⟨second, rest2, rfl, h.2, h.1⟩
        · simp [hf] at h
  · rintro ⟨second, rest, hp, hne, hmem⟩
    simp [hp, hne, hmem]

/-- C10: the denylist test in `is_clean_post_path` is case-sensitive:
`/Resources/calendar` is accepted even though `Calendar` is denylisted
and `/Resources/Calendar` is rejected. -/
theorem c10_denylist_case_sensitive :
    is_clean_post_path "/Resources/calendar" = true ∧
    "Calendar" ∈ BAD_SLUGS ∧
    is_clean_post_path "/Resources/Calendar" = false := by
  refine ⟨by decide, ?_, by decide⟩
  simp [BAD_SLUGS]

end RoachScrape
